import Mathlib

/-!
Shallow embedding of the quantum state-vector simulator of this repository.

The computational core lives in `src/App.tsx` (complex helpers, `applyGate`,
`applyControlledGate`, the circuit-simulation fold), in
`src/unnamed/part_004` (reduced density matrices, eigenvalues, von Neumann
entropy, mutual information, concurrence / CHSH) and in
`src/unnamed/part_001` (the measurement sampler).

Complex numbers `{r, i}` of the source are modelled by Mathlib's `ℂ`
(a pair of reals); the source helpers `add`, `mul`, `mulS`, `magSq` are
embedded literally below and related to the ring operations of `ℂ`.
JavaScript 64-bit floats are modelled by real numbers; basis indices by `ℕ`.
An amplitude array of length `2^N` is modelled as a total function
`ℕ → ℂ` whose values at indices `≥ 2^N` are never touched by the engine.
-/

namespace QuantumLens

/-! ### Definitions: the embedded program -/

/-- Amplitude vectors: basis index to complex amplitude. -/
abbrev State := ℕ → ℂ

/-- Source: `const zero: Complex = { r: 0, i: 0 }`. -/
def czero : ℂ := ⟨0, 0⟩

/-- Source: `const one: Complex = { r: 1, i: 0 }`. -/
def cone : ℂ := ⟨1, 0⟩

/-- Source: `const add = (a, b) => ({ r: a.r + b.r, i: a.i + b.i })`. -/
def cadd (a b : ℂ) : ℂ := ⟨a.re + b.re, a.im + b.im⟩

/-- Source: `const mul = (a, b) => ({ r: a.r*b.r - a.i*b.i, i: a.r*b.i + a.i*b.r })`. -/
def cmul (a b : ℂ) : ℂ := ⟨a.re * b.re - a.im * b.im, a.re * b.im + a.im * b.re⟩

/-- Source: `const mulS = (a, s) => ({ r: a.r * s, i: a.i * s })`. -/
def mulS (a : ℂ) (s : ℝ) : ℂ := ⟨a.re * s, a.im * s⟩

/-- Source: `const magSq = (a) => a.r * a.r + a.i * a.i`. -/
def magSq (a : ℂ) : ℝ := a.re * a.re + a.im * a.im

/-- The ten supported gate kinds. -/
inductive GateType
  | H | X | Y | Z | S | T | CX | CY | CZ | CS
deriving DecidableEq, Repr

/-- A gate descriptor: kind, target wire, optional control wire. -/
structure Gate where
  type : GateType
  target : ℕ
  control : Option ℕ := none
deriving DecidableEq, Repr

/-- Source: `lowMask = (1 << target) - 1`. -/
def lowMask (t : ℕ) : ℕ := (1 <<< t) - 1

/-- Source: `idx0 = ((i & ~lowMask) << 1) | (i & lowMask)`. -/
def pairIdx0 (t i : ℕ) : ℕ :=
  let low := i &&& lowMask t
  let high := (i - low) <<< 1
  high ||| low

/-- Source: `idx1 = idx0 | (1 << target)`. -/
def pairIdx1 (t i : ℕ) : ℕ := pairIdx0 t i ||| (1 <<< t)

/-- Inverse of the pairing: recover the loop counter from a full index. -/
def invIdx (t j : ℕ) : ℕ := 2 ^ t * (j / 2 ^ (t + 1)) + j % 2 ^ t

/-- One iteration of the `applyGate` loop: reads from the fixed old state `s`,
writes the two pair slots of the accumulator `ns`. -/
def applyGatePair (s : State) (u00 u01 u10 u11 : ℂ) (t : ℕ) (ns : State) (i : ℕ) : State :=
  let i0 := pairIdx0 t i
  let i1 := pairIdx1 t i
  let a0 := s i0
  let a1 := s i1
  Function.update (Function.update ns i0 (cadd (cmul u00 a0) (cmul u01 a1)))
    i1 (cadd (cmul u10 a0) (cmul u11 a1))

/-- Source `applyGate`: loop `i` over `0 .. numStates/2 - 1`. -/
def applyGate (numStates : ℕ) (u00 u01 u10 u11 : ℂ) (t : ℕ) (s : State) : State :=
  (List.range (numStates / 2)).foldl (applyGatePair s u00 u01 u10 u11 t) s

/-- One iteration of the `applyControlledGate` loop. The control test is
`(idx0 & (1 << ctrl)) !== 0`; each controlled kind writes its own slots:
CX swaps the pair, CZ negates `idx1`, CY writes `{r: a1.i, i: -a1.r}` at
`idx0` and `{r: -a0.i, i: a0.r}` at `idx1`, CS writes `{r: -a1.i, i: a1.r}`
at `idx1`. Other kinds never reach this function in the source; they leave
the accumulator unchanged. -/
def applyControlledGatePair (s : State) (ty : GateType) (ctrl t : ℕ) (ns : State) (i : ℕ) :
    State :=
  let i0 := pairIdx0 t i
  let i1 := pairIdx1 t i
  if (i0 &&& (1 <<< ctrl)) ≠ 0 then
    let a0 := s i0
    let a1 := s i1
    match ty with
    | .CX => Function.update (Function.update ns i0 a1) i1 a0
    | .CZ => Function.update ns i1 (mulS a1 (-1))
    | .CY => Function.update (Function.update ns i0 ⟨a1.im, -a1.re⟩) i1 ⟨-a0.im, a0.re⟩
    | .CS => Function.update ns i1 ⟨-a1.im, a1.re⟩
    | _ => ns
  else ns

/-- Source `applyControlledGate`: loop `i` over `0 .. numStates/2 - 1`. -/
def applyControlledGate (numStates : ℕ) (ty : GateType) (ctrl t : ℕ) (s : State) : State :=
  (List.range (numStates / 2)).foldl (applyControlledGatePair s ty ctrl t) s

/-- Source: `const INV_SQRT_2 = 1 / Math.sqrt(2)`. -/
noncomputable def INV_SQRT_2 : ℝ := 1 / Real.sqrt 2

/-- Source: value of the T gate, `{ r: Math.cos(PI/4), i: Math.sin(PI/4) }`. -/
noncomputable def tVal : ℂ := ⟨Real.cos (Real.pi / 4), Real.sin (Real.pi / 4)⟩

/-- The body of `flattenedCircuit.forEach(gate => ...)`: skip the gate when
`T >= numQubits || (C !== undefined && C >= numQubits)`, otherwise dispatch
on the kind; controlled kinds are applied only when a control is present. -/
noncomputable def stepGate (numQubits : ℕ) (s : State) (g : Gate) : State :=
  let numStates := 1 <<< numQubits
  if numQubits ≤ g.target ∨ (∃ c ∈ g.control, numQubits ≤ c) then s
  else
    match g.type with
    | .H => applyGate numStates ⟨INV_SQRT_2, 0⟩ ⟨INV_SQRT_2, 0⟩ ⟨INV_SQRT_2, 0⟩
        ⟨-INV_SQRT_2, 0⟩ g.target s
    | .X => applyGate numStates czero cone cone czero g.target s
    | .Y => applyGate numStates czero ⟨0, -1⟩ ⟨0, 1⟩ czero g.target s
    | .Z => applyGate numStates cone czero czero ⟨-1, 0⟩ g.target s
    | .S => applyGate numStates cone czero czero ⟨0, 1⟩ g.target s
    | .T => applyGate numStates cone czero czero tVal g.target s
    | _ =>
        match g.control with
        | some c => applyControlledGate numStates g.type c g.target s
        | none => s

/-- Source: `state = new Array(numStates).fill(zero); state[0] = one`. -/
def initState : State := fun j => if j = 0 then cone else czero

/-- The simulation `useEffect`: fold the dispatch over the flattened circuit
in array order, starting from the all-zero basis state. -/
noncomputable def simulate (numQubits : ℕ) (circuit : List Gate) : State :=
  circuit.foldl (stepGate numQubits) initState

/-- A gate descriptor with in-range target and (when present) control. -/
def validGate (numQubits : ℕ) (g : Gate) : Prop :=
  g.target < numQubits ∧ ∀ c ∈ g.control, c < numQubits

/-- Squared-magnitude sum of the first `2^numQubits` amplitudes. -/
def normSum (numQubits : ℕ) (s : State) : ℝ :=
  ∑ j ∈ Finset.range (2 ^ numQubits), magSq (s j)

def pointAction (n : ℕ) (u00 u01 u10 u11 : ℂ) (P : ℕ → Bool) (t : ℕ) (s : State) : State :=
  fun j =>
    if j < 2 ^ n then
      if P j then
        if j.testBit t then u10 * s (j ^^^ 2 ^ t) + u11 * s j
        else u00 * s j + u01 * s (j ^^^ 2 ^ t)
      else s j
    else s j

def pointCoefA (u00 u11 : ℂ) (P : ℕ → Bool) (t j : ℕ) : ℂ :=
  if P j then (if j.testBit t then u11 else u00) else 1

def pointCoefB (u01 u10 : ℂ) (P : ℕ → Bool) (t j : ℕ) : ℂ :=
  if P j then (if j.testBit t then u10 else u01) else 0

/-- The per-pair transformation rule of each controlled kind, as the 2x2
matrix it realizes on the conditioned subspace; kinds that the controlled
loop ignores act as the identity. -/
def ctrlMat : GateType → ℂ × ℂ × ℂ × ℂ
  | .CX => (0, 1, 1, 0)
  | .CY => (0, -Complex.I, Complex.I, 0)
  | .CZ => (1, 0, 0, -1)
  | .CS => (1, 0, 0, Complex.I)
  | _ => (1, 0, 0, 1)

/-- The qubit indices a gate descriptor touches (target plus control). -/
def gateQubits (g : Gate) : List ℕ := g.target :: g.control.toList

/-- Whether a gate kind is one of the four controlled variants. -/
def isControlled : GateType → Bool
  | .CX | .CY | .CZ | .CS => true
  | _ => false

/-- The 2x2 matrix the dispatch applies for each kind (controlled kinds via
their per-pair rule). -/
noncomputable def gateU (g : Gate) : ℂ × ℂ × ℂ × ℂ :=
  match g.type with
  | .H => (⟨INV_SQRT_2, 0⟩, ⟨INV_SQRT_2, 0⟩, ⟨INV_SQRT_2, 0⟩, ⟨-INV_SQRT_2, 0⟩)
  | .X => (czero, cone, cone, czero)
  | .Y => (czero, ⟨0, -1⟩, ⟨0, 1⟩, czero)
  | .Z => (cone, czero, czero, ⟨-1, 0⟩)
  | .S => (cone, czero, czero, ⟨0, 1⟩)
  | .T => (cone, czero, czero, tVal)
  | ty => ctrlMat ty

/-- The per-index condition under which the dispatch transforms a pair. -/
def gateCond (g : Gate) : ℕ → Bool :=
  if isControlled g.type then
    match g.control with
    | some c => if c = g.target then fun _ => false else fun j => j.testBit c
    | none => fun _ => false
  else fun _ => true

/-- The index-reconstruction loops of `getReducedDensityMatrix`: for every
position `i` of `positions` whose bit is set in `v`, set bit `positions[i]`
of the accumulator (`forEach((bitPos, i) => if (v & (1<<i)) acc |= 1<<bitPos)`). -/
def setBits (positions : List ℕ) (v : ℕ) (acc : ℕ) : ℕ :=
  positions.enum.foldl
    (fun acc2 p => if v &&& (1 <<< p.1) ≠ 0 then acc2 ||| (1 <<< p.2) else acc2) acc

/-- Source: qubits not kept, in ascending order. -/
def traceIndices (numQubits : ℕ) (keep : List ℕ) : List ℕ :=
  (List.range numQubits).filter (fun q => ! keep.contains q)

/-- Entry `(u, v)` of the reduced density matrix: the triple loop accumulates
`rho[u*dim+v] += ampU * conj(ampV)` componentwise over every assignment `k`
of the traced-out bits. -/
noncomputable def rhoEntry (amps : State) (numQubits : ℕ) (keep : List ℕ) (u v : ℕ) : ℂ :=
  ∑ k ∈ Finset.range (2 ^ (traceIndices numQubits keep).length),
    (let traceVal := setBits (traceIndices numQubits keep) k 0
     let ampU := amps (setBits keep u traceVal)
     let ampV := amps (setBits keep v traceVal)
     ⟨ampU.re * ampV.re + ampU.im * ampV.im, ampU.im * ampV.re - ampU.re * ampV.im⟩)

/-- `calculateEigenvalues` (part_004 lines 342-352): closed 2x2 form from
`rho00 = rho[0].r`, `rho11 = rho[3].r`, `rho01 = rho[1]`. -/
noncomputable def calculateEigenvalues (rho00 rho11 : ℝ) (rho01 : ℂ) : ℝ × ℝ :=
  let det := rho00 * rho11 - (rho01.re * rho01.re + rho01.im * rho01.im)
  let diff := Real.sqrt (max 0 (1 - 4 * det))
  ((1 + diff) / 2, (1 - diff) / 2)

/-- `safeLog`: `x > 1e-9 ? x * Math.log2(x) : 0`. -/
noncomputable def safeLog (x : ℝ) : ℝ := if x > 1e-9 then x * Real.logb 2 x else 0

/-- `calculateEntropy` (part_004 lines 353-356). -/
noncomputable def calculateEntropy (l1 l2 : ℝ) : ℝ := -(safeLog l1 + safeLog l2)

/-- Eigenvalues of the reduced density matrix of single qubit `q`. -/
noncomputable def qubitEigen (amps : State) (numQubits q : ℕ) : ℝ × ℝ :=
  calculateEigenvalues (rhoEntry amps numQubits [q] 0 0).re
    (rhoEntry amps numQubits [q] 1 1).re (rhoEntry amps numQubits [q] 0 1)

/-- Von Neumann entropy of single qubit `q` before display rounding. -/
noncomputable def qubitEntropyRaw (amps : State) (numQubits q : ℕ) : ℝ :=
  calculateEntropy (qubitEigen amps numQubits q).1 (qubitEigen amps numQubits q).2

/-- The stored entropy: `Math.abs(s) < 1e-9 ? 0 : s`. -/
noncomputable def qubitEntropy (amps : State) (numQubits q : ℕ) : ℝ :=
  if |qubitEntropyRaw amps numQubits q| < 1e-9 then 0
  else qubitEntropyRaw amps numQubits q

/-- `mutualInfo` (part_004 lines 379-396): no edges above three qubits; for a
pair `(i, j)` the subtracted joint entropy is the remaining qubit's entropy
when `numQubits = 3` and zero when `numQubits = 2`. -/
noncomputable def mutualInfo (amps : State) (numQubits : ℕ) : List (ℕ × ℕ × ℝ) :=
  if numQubits > 3 then []
  else
    (List.range numQubits).bind (fun i =>
      ((List.range numQubits).filter (fun j => i < j)).map (fun j =>
        let s_ab : ℝ :=
          if numQubits = 2 then 0
          else if numQubits = 3 then
            qubitEntropy amps numQubits
              ((([0, 1, 2].find? (fun x => x != i && x != j)).getD 0))
          else 0
        (i, j,
          max 0 (qubitEntropy amps numQubits i + qubitEntropy amps numQubits j - s_ab))))

/-- `bellAnalysis` concurrence (two-qubit system): `2 * sqrt(l1 * l2)` from
qubit 0's reduced eigenvalues. -/
noncomputable def concurrence (amps : State) : ℝ :=
  2 * Real.sqrt ((qubitEigen amps 2 0).1 * (qubitEigen amps 2 0).2)

/-- `bellAnalysis` CHSH statistic: `2 * sqrt(1 + C^2)`. -/
noncomputable def chsh (amps : State) : ℝ :=
  2 * Real.sqrt (1 + concurrence amps * concurrence amps)

/-- The cumulative distribution: `cdf[0] = probs[0]; cdf[i] = cdf[i-1] + probs[i]`
with `probs = amplitudes.map(magSq)`. -/
noncomputable def cdf (amps : State) : ℕ → ℝ
  | 0 => magSq (amps 0)
  | i + 1 => cdf amps i + magSq (amps (i + 1))

/-- One draw of the sampling loop: outcome defaults to `numStates - 1`, and the
inner loop scans `j = 0 .. numStates-2`, breaking at the first `j` with
`rand < cdf[j]`. -/
noncomputable def sampleOutcome (numStates : ℕ) (c : ℕ → ℝ) (rand : ℝ) : ℕ :=
  match (List.range (numStates - 1)).find? (fun j => decide (rand < c j)) with
  | some j => j
  | none => numStates - 1

/-- The two-qubit Bell circuit: `H` on qubit 0, then `CX(control 0, target 1)`. -/
noncomputable def bellState : State :=
  simulate 2 [Gate.mk .H 0 none, Gate.mk .CX 1 (some 0)]

/-! ### Theorems -/


/-! ### Complex helpers (src/App.tsx lines 25-31) -/

theorem czero_eq : czero = 0 := by
  apply Complex.ext <;> simp [czero]

theorem cone_eq : cone = 1 := by
  apply Complex.ext <;> simp [cone]

theorem cadd_eq (a b : ℂ) : cadd a b = a + b := by
  apply Complex.ext <;> simp [cadd]

theorem cmul_eq (a b : ℂ) : cmul a b = a * b := by
  apply Complex.ext <;> simp [cmul, Complex.mul_re, Complex.mul_im]

theorem mulS_eq (a : ℂ) (s : ℝ) : mulS a s = a * (s : ℂ) := by
  apply Complex.ext <;> simp [mulS, Complex.mul_re, Complex.mul_im]

theorem magSq_eq (a : ℂ) : magSq a = Complex.normSq a := by
  simp [magSq, Complex.normSq_apply]

/-! ### Arithmetic of the index pairing (src/App.tsx lines 374-389)

For loop counter `i` and target bit `t` the source computes
`lowMask = (1 << target) - 1`, `low = i & lowMask`,
`high = (i & ~lowMask) << 1`, `idx0 = high | low`, `idx1 = idx0 | (1 << target)`.
On naturals, `i & ~lowMask` (clearing the low `t` bits) is `i - (i & lowMask)`.
-/

theorem low_eq_mod (t i : ℕ) : i &&& lowMask t = i % 2 ^ t := by
  simp [lowMask, Nat.shiftLeft_eq, Nat.and_pow_two_sub_one_eq_mod]

theorem pairIdx0_eq (t i : ℕ) :
    pairIdx0 t i = 2 ^ (t + 1) * (i / 2 ^ t) + i % 2 ^ t := by
  have hlow : i &&& lowMask t = i % 2 ^ t := low_eq_mod t i
  have hsub : i - i % 2 ^ t = 2 ^ t * (i / 2 ^ t) := by
    have := Nat.div_add_mod i (2 ^ t)
    omega
  have hmod : i % 2 ^ t < 2 ^ t := Nat.mod_lt _ (Nat.pos_pow_of_pos t (by norm_num))
  have hlt : i % 2 ^ t < 2 ^ (t + 1) := by
    have : (2:ℕ) ^ t ≤ 2 ^ (t+1) := Nat.pow_le_pow_right (by norm_num) (by omega)
    omega
  calc pairIdx0 t i
      = ((i - i % 2 ^ t) <<< 1) ||| (i % 2 ^ t) := by
        simp only [pairIdx0, hlow]
    _ = (2 ^ (t + 1) * (i / 2 ^ t)) ||| (i % 2 ^ t) := by
        rw [hsub, Nat.shiftLeft_eq]
        ring_nf
    _ = 2 ^ (t + 1) * (i / 2 ^ t) + i % 2 ^ t := by
        rw [← Nat.mul_add_lt_is_or hlt]

theorem pairIdx1_eq (t i : ℕ) : pairIdx1 t i = pairIdx0 t i + 2 ^ t := by
  have hmod : i % 2 ^ t < 2 ^ t := Nat.mod_lt _ (Nat.pos_pow_of_pos t (by norm_num))
  have h1 : (1:ℕ) <<< t = 2 ^ t := by simp [Nat.shiftLeft_eq]
  have hor : (2 ^ t) ||| (i % 2 ^ t) = 2 ^ t + i % 2 ^ t := by
    have := Nat.mul_add_lt_is_or (i := t) (a := 1) hmod
    simpa using this.symm
  have hlt2 : 2 ^ t + i % 2 ^ t < 2 ^ (t + 1) := by
    have : (2:ℕ) ^ (t+1) = 2 ^ t + 2 ^ t := by ring
    omega
  calc pairIdx1 t i
      = (2 ^ (t + 1) * (i / 2 ^ t) + i % 2 ^ t) ||| 2 ^ t := by
        rw [pairIdx1, pairIdx0_eq, h1]
    _ = ((2 ^ (t + 1) * (i / 2 ^ t)) ||| (i % 2 ^ t)) ||| 2 ^ t := by
        rw [← Nat.mul_add_lt_is_or (by omega : i % 2 ^ t < 2 ^ (t+1))]
    _ = (2 ^ (t + 1) * (i / 2 ^ t)) ||| (2 ^ t + i % 2 ^ t) := by
        rw [Nat.or_assoc, Nat.or_comm (i % 2 ^ t) (2 ^ t), hor]
    _ = 2 ^ (t + 1) * (i / 2 ^ t) + (2 ^ t + i % 2 ^ t) := by
        rw [← Nat.mul_add_lt_is_or hlt2]
    _ = pairIdx0 t i + 2 ^ t := by rw [pairIdx0_eq]; ring

theorem pairIdx0_mod (t i : ℕ) : pairIdx0 t i % 2 ^ (t + 1) = i % 2 ^ t := by
  rw [pairIdx0_eq, Nat.mul_add_mod]
  exact Nat.mod_eq_of_lt (lt_of_lt_of_le (Nat.mod_lt _ (Nat.pos_pow_of_pos t (by norm_num)))
    (Nat.pow_le_pow_right (by norm_num) (by omega)))

theorem pairIdx0_div (t i : ℕ) : pairIdx0 t i / 2 ^ (t + 1) = i / 2 ^ t := by
  rw [pairIdx0_eq, Nat.mul_add_div (Nat.pos_pow_of_pos (t+1) (by norm_num))]
  have : i % 2 ^ t / 2 ^ (t + 1) = 0 :=
    Nat.div_eq_of_lt (lt_of_lt_of_le (Nat.mod_lt _ (Nat.pos_pow_of_pos t (by norm_num)))
      (Nat.pow_le_pow_right (by norm_num) (by omega)))
  omega

theorem pairIdx1_mod (t i : ℕ) : pairIdx1 t i % 2 ^ (t + 1) = 2 ^ t + i % 2 ^ t := by
  have hmod : i % 2 ^ t < 2 ^ t := Nat.mod_lt _ (Nat.pos_pow_of_pos t (by norm_num))
  have hp : (2:ℕ) ^ (t+1) = 2 ^ t + 2 ^ t := by ring
  rw [pairIdx1_eq, pairIdx0_eq, Nat.add_assoc, Nat.mul_add_mod]
  have h2 : (i % 2 ^ t + 2 ^ t) % 2 ^ (t + 1) = i % 2 ^ t + 2 ^ t :=
    Nat.mod_eq_of_lt (by omega)
  omega

theorem pairIdx1_div (t i : ℕ) : pairIdx1 t i / 2 ^ (t + 1) = i / 2 ^ t := by
  have hmod : i % 2 ^ t < 2 ^ t := Nat.mod_lt _ (Nat.pos_pow_of_pos t (by norm_num))
  have hp : (2:ℕ) ^ (t+1) = 2 ^ t + 2 ^ t := by ring
  rw [pairIdx1_eq, pairIdx0_eq, Nat.add_assoc,
    Nat.mul_add_div (Nat.pos_pow_of_pos (t+1) (by norm_num))]
  have : (i % 2 ^ t + 2 ^ t) / 2 ^ (t + 1) = 0 := Nat.div_eq_of_lt (by omega)
  omega

theorem pairIdx0_inj {t i i2 : ℕ} (h : pairIdx0 t i = pairIdx0 t i2) : i = i2 := by
  have e1 : i % 2 ^ t = i2 % 2 ^ t := by
    rw [← pairIdx0_mod t i, h, pairIdx0_mod]
  have e2 : i / 2 ^ t = i2 / 2 ^ t := by
    rw [← pairIdx0_div t i, h, pairIdx0_div]
  have h1 := Nat.div_add_mod i (2 ^ t)
  have h2 := Nat.div_add_mod i2 (2 ^ t)
  have e3 : 2 ^ t * (i / 2 ^ t) = 2 ^ t * (i2 / 2 ^ t) := by rw [e2]
  omega

theorem pairIdx1_inj {t i i2 : ℕ} (h : pairIdx1 t i = pairIdx1 t i2) : i = i2 := by
  apply pairIdx0_inj (t := t)
  have := pairIdx1_eq t i
  have := pairIdx1_eq t i2
  omega

theorem pairIdx0_ne_pairIdx1 (t i i2 : ℕ) : pairIdx0 t i ≠ pairIdx1 t i2 := by
  intro h
  have hm := pairIdx0_mod t i
  have hm2 := pairIdx1_mod t i2
  have hmod : i % 2 ^ t < 2 ^ t := Nat.mod_lt _ (Nat.pos_pow_of_pos t (by norm_num))
  rw [h] at hm
  omega

theorem pairIdx0_lt {n t i : ℕ} (ht : t < n) (hi : i < 2 ^ (n - 1)) :
    pairIdx0 t i < 2 ^ n := by
  have hmod : i % 2 ^ t < 2 ^ t := Nat.mod_lt _ (Nat.pos_pow_of_pos t (by norm_num))
  have hsplit : (2:ℕ) ^ (n - 1) = 2 ^ t * 2 ^ (n - 1 - t) := by
    rw [← pow_add]; congr 1; omega
  have hdiv : i / 2 ^ t < 2 ^ (n - 1 - t) := Nat.div_lt_of_lt_mul (by omega)
  have key : 2 ^ (t + 1) * (i / 2 ^ t) + 2 ^ (t + 1) ≤ 2 ^ n := by
    calc 2 ^ (t + 1) * (i / 2 ^ t) + 2 ^ (t + 1)
        = 2 ^ (t + 1) * (i / 2 ^ t + 1) := by ring
      _ ≤ 2 ^ (t + 1) * 2 ^ (n - 1 - t) := Nat.mul_le_mul_left _ hdiv
      _ = 2 ^ n := by rw [← pow_add]; congr 1; omega
  have hp : (2:ℕ) ^ (t + 1) = 2 ^ t + 2 ^ t := by ring
  rw [pairIdx0_eq]
  omega

theorem pairIdx1_lt {n t i : ℕ} (ht : t < n) (hi : i < 2 ^ (n - 1)) :
    pairIdx1 t i < 2 ^ n := by
  have hmod : i % 2 ^ t < 2 ^ t := Nat.mod_lt _ (Nat.pos_pow_of_pos t (by norm_num))
  have hsplit : (2:ℕ) ^ (n - 1) = 2 ^ t * 2 ^ (n - 1 - t) := by
    rw [← pow_add]; congr 1; omega
  have hdiv : i / 2 ^ t < 2 ^ (n - 1 - t) := Nat.div_lt_of_lt_mul (by omega)
  have key : 2 ^ (t + 1) * (i / 2 ^ t) + 2 ^ (t + 1) ≤ 2 ^ n := by
    calc 2 ^ (t + 1) * (i / 2 ^ t) + 2 ^ (t + 1)
        = 2 ^ (t + 1) * (i / 2 ^ t + 1) := by ring
      _ ≤ 2 ^ (t + 1) * 2 ^ (n - 1 - t) := Nat.mul_le_mul_left _ hdiv
      _ = 2 ^ n := by rw [← pow_add]; congr 1; omega
  have hp : (2:ℕ) ^ (t + 1) = 2 ^ t + 2 ^ t := by ring
  rw [pairIdx1_eq, pairIdx0_eq]
  omega

theorem invIdx_mod (t j : ℕ) : invIdx t j % 2 ^ t = j % 2 ^ t := by
  rw [invIdx, Nat.mul_add_mod]
  exact Nat.mod_eq_of_lt (Nat.mod_lt _ (Nat.pos_pow_of_pos t (by norm_num)))

theorem invIdx_div (t j : ℕ) : invIdx t j / 2 ^ t = j / 2 ^ (t + 1) := by
  rw [invIdx, Nat.mul_add_div (Nat.pos_pow_of_pos t (by norm_num))]
  have : j % 2 ^ t / 2 ^ t = 0 :=
    Nat.div_eq_of_lt (Nat.mod_lt _ (Nat.pos_pow_of_pos t (by norm_num)))
  omega

theorem invIdx_lt {n t j : ℕ} (ht : t < n) (hj : j < 2 ^ n) : invIdx t j < 2 ^ (n - 1) := by
  have hmod : j % 2 ^ t < 2 ^ t := Nat.mod_lt _ (Nat.pos_pow_of_pos t (by norm_num))
  have hsplit : (2:ℕ) ^ n = 2 ^ (t + 1) * 2 ^ (n - 1 - t) := by
    rw [← pow_add]; congr 1; omega
  have hdiv : j / 2 ^ (t + 1) < 2 ^ (n - 1 - t) := Nat.div_lt_of_lt_mul (by omega)
  have key : 2 ^ t * (j / 2 ^ (t + 1)) + 2 ^ t ≤ 2 ^ (n - 1) := by
    calc 2 ^ t * (j / 2 ^ (t + 1)) + 2 ^ t
        = 2 ^ t * (j / 2 ^ (t + 1) + 1) := by ring
      _ ≤ 2 ^ t * 2 ^ (n - 1 - t) := Nat.mul_le_mul_left _ hdiv
      _ = 2 ^ (n - 1) := by rw [← pow_add]; congr 1; omega
  rw [invIdx]
  omega

/-- The mod `2^(t+1)` residue decides which half of a pair an index is in. -/
theorem mod_succ_split (t j : ℕ) :
    j % 2 ^ (t + 1) = 2 ^ t * (j / 2 ^ t % 2) + j % 2 ^ t := by
  rw [Nat.mod_pow_succ]; ring

theorem invIdx_pairIdx0 (t i : ℕ) : invIdx t (pairIdx0 t i) = i := by
  have hmodmod : pairIdx0 t i % 2 ^ t = i % 2 ^ t := by
    have hdvd : (2:ℕ) ^ t ∣ 2 ^ (t + 1) := pow_dvd_pow 2 (by omega)
    rw [← Nat.mod_mod_of_dvd _ hdvd, pairIdx0_mod]
    exact Nat.mod_mod_of_dvd i dvd_rfl
  have h1 := Nat.div_add_mod i (2 ^ t)
  have h2 : 2 ^ t * (pairIdx0 t i / 2 ^ (t + 1)) = 2 ^ t * (i / 2 ^ t) := by
    rw [pairIdx0_div]
  rw [invIdx]
  omega

theorem invIdx_pairIdx1 (t i : ℕ) : invIdx t (pairIdx1 t i) = i := by
  have hmod : i % 2 ^ t < 2 ^ t := Nat.mod_lt _ (Nat.pos_pow_of_pos t (by norm_num))
  have hmodmod : pairIdx1 t i % 2 ^ t = i % 2 ^ t := by
    have hdvd : (2:ℕ) ^ t ∣ 2 ^ (t + 1) := pow_dvd_pow 2 (by omega)
    rw [← Nat.mod_mod_of_dvd _ hdvd, pairIdx1_mod, Nat.add_comm, Nat.add_mod_right]
    exact Nat.mod_mod_of_dvd i dvd_rfl
  have h1 := Nat.div_add_mod i (2 ^ t)
  have h2 : 2 ^ t * (pairIdx1 t i / 2 ^ (t + 1)) = 2 ^ t * (i / 2 ^ t) := by
    rw [pairIdx1_div]
  rw [invIdx]
  omega

theorem pairIdx0_invIdx {t j : ℕ} (h : j / 2 ^ t % 2 = 0) :
    pairIdx0 t (invIdx t j) = j := by
  have hsplit := mod_succ_split t j
  have h1 := Nat.div_add_mod j (2 ^ (t + 1))
  have h2 : 2 ^ (t + 1) * (invIdx t j / 2 ^ t) = 2 ^ (t + 1) * (j / 2 ^ (t + 1)) := by
    rw [invIdx_div]
  rw [pairIdx0_eq, invIdx_mod]
  rw [h] at hsplit
  omega

theorem pairIdx1_invIdx {t j : ℕ} (h : j / 2 ^ t % 2 = 1) :
    pairIdx1 t (invIdx t j) = j := by
  have hsplit := mod_succ_split t j
  have h1 := Nat.div_add_mod j (2 ^ (t + 1))
  have h2 : 2 ^ (t + 1) * (invIdx t j / 2 ^ t) = 2 ^ (t + 1) * (j / 2 ^ (t + 1)) := by
    rw [invIdx_div]
  rw [pairIdx1_eq, pairIdx0_eq, invIdx_mod]
  rw [h] at hsplit
  omega

theorem pairIdx0_bit (t i : ℕ) : pairIdx0 t i / 2 ^ t % 2 = 0 := by
  have hmod : i % 2 ^ t < 2 ^ t := Nat.mod_lt _ (Nat.pos_pow_of_pos t (by norm_num))
  have hre : 2 ^ (t + 1) * (i / 2 ^ t) = 2 ^ t * (2 * (i / 2 ^ t)) := by ring
  rw [pairIdx0_eq, hre, Nat.mul_add_div (Nat.pos_pow_of_pos t (by norm_num)),
    Nat.div_eq_of_lt hmod]
  omega

theorem pairIdx1_bit (t i : ℕ) : pairIdx1 t i / 2 ^ t % 2 = 1 := by
  have hmod : i % 2 ^ t < 2 ^ t := Nat.mod_lt _ (Nat.pos_pow_of_pos t (by norm_num))
  have hre : pairIdx1 t i = 2 ^ t * (2 * (i / 2 ^ t) + 1) + i % 2 ^ t := by
    rw [pairIdx1_eq, pairIdx0_eq]; ring
  rw [hre, Nat.mul_add_div (Nat.pos_pow_of_pos t (by norm_num)),
    Nat.div_eq_of_lt hmod]
  omega

theorem half_pow {n : ℕ} (hn : 0 < n) : 2 ^ n / 2 = 2 ^ (n - 1) := by
  have : (2:ℕ) ^ n = 2 ^ (n - 1) * 2 := by
    rw [← pow_succ]; congr 1; omega
  rw [this, Nat.mul_div_cancel _ (by norm_num)]

/-! ### Pointwise evaluation of the update loops

Every loop iteration writes only its own pair slots and reads only the
immutable snapshot `s`, so the folded result can be evaluated pointwise. -/

theorem foldl_eval_untouched (step : State → ℕ → State) (f g : ℕ → ℕ)
    (hloc : ∀ ns i j, j ≠ f i → j ≠ g i → step ns i j = ns j)
    (l : List ℕ) (s0 : State) (j : ℕ)
    (h : ∀ i ∈ l, j ≠ f i ∧ j ≠ g i) :
    (l.foldl step s0) j = s0 j := by
  induction l generalizing s0 with
  | nil => rfl
  | cons a l ih =>
      simp only [List.foldl_cons]
      rw [ih (step s0 a) (fun i hi => h i (List.mem_cons_of_mem a hi))]
      exact hloc s0 a j (h a (List.mem_cons_self a l)).1 (h a (List.mem_cons_self a l)).2

theorem foldl_eval_touched (step : State → ℕ → State) (f g : ℕ → ℕ)
    (hloc : ∀ ns i j, j ≠ f i → j ≠ g i → step ns i j = ns j)
    (hdet : ∀ ns ns2 i j, ns j = ns2 j → step ns i j = step ns2 i j)
    (l : List ℕ) (hnd : l.Nodup) (s0 : State) (i j : ℕ)
    (hi : i ∈ l)
    (huniq : ∀ i2 ∈ l, i2 ≠ i → j ≠ f i2 ∧ j ≠ g i2) :
    (l.foldl step s0) j = step s0 i j := by
  induction l generalizing s0 with
  | nil => cases hi
  | cons a l ih =>
      simp only [List.foldl_cons]
      rcases List.mem_cons.mp hi with heq | hmem
      · subst heq
        have hnotin : i ∉ l := (List.nodup_cons.mp hnd).1
        refine foldl_eval_untouched step f g hloc l (step s0 i) j ?_
        intro i2 hi2
        refine huniq i2 (List.mem_cons_of_mem _ hi2) ?_
        intro he
        exact hnotin (he ▸ hi2)
      · have ha : a ≠ i := by
          rintro rfl
          exact (List.nodup_cons.mp hnd).1 hmem
        have h1 : (step s0 a) j = s0 j :=
          hloc s0 a j (huniq a (List.mem_cons_self a l) ha).1
            (huniq a (List.mem_cons_self a l) ha).2
        rw [ih (List.nodup_cons.mp hnd).2 (step s0 a) hmem
          (fun i2 h2 hne => huniq i2 (List.mem_cons_of_mem _ h2) hne)]
        exact hdet _ _ i j h1

/-! ### Pair-slot evaluation of the gate loops (src/App.tsx lines 373-417)

`applyGate` copies the state (`const newState = [...state]`), then for every
loop counter `i < numStates / 2` reads the pair `(state[idx0], state[idx1])`
from the OLD state and overwrites `newState[idx0]`, `newState[idx1]`.
`applyControlledGate` does the same but only transforms pairs whose control
bit is set in `idx0`, with a hand-written rule per controlled kind.
-/

theorem applyGatePair_loc (s : State) (u00 u01 u10 u11 : ℂ) (t : ℕ) (ns : State) (i j : ℕ)
    (h0 : j ≠ pairIdx0 t i) (h1 : j ≠ pairIdx1 t i) :
    applyGatePair s u00 u01 u10 u11 t ns i j = ns j := by
  simp only [applyGatePair]
  rw [Function.update_noteq h1, Function.update_noteq h0]

theorem applyGatePair_det (s : State) (u00 u01 u10 u11 : ℂ) (t : ℕ) (ns ns2 : State)
    (i j : ℕ) (h : ns j = ns2 j) :
    applyGatePair s u00 u01 u10 u11 t ns i j = applyGatePair s u00 u01 u10 u11 t ns2 i j := by
  simp only [applyGatePair]
  by_cases h1 : j = pairIdx1 t i
  · subst h1; rw [Function.update_same, Function.update_same]
  · rw [Function.update_noteq h1, Function.update_noteq h1]
    by_cases h0 : j = pairIdx0 t i
    · subst h0; rw [Function.update_same, Function.update_same]
    · rw [Function.update_noteq h0, Function.update_noteq h0]; exact h

theorem applyGate_at0 {n t i : ℕ} (ht : t < n) (hi : i < 2 ^ (n - 1))
    (u00 u01 u10 u11 : ℂ) (s : State) :
    applyGate (2 ^ n) u00 u01 u10 u11 t s (pairIdx0 t i) =
      cadd (cmul u00 (s (pairIdx0 t i))) (cmul u01 (s (pairIdx1 t i))) := by
  have hn : 0 < n := by omega
  unfold applyGate
  rw [half_pow hn,
    foldl_eval_touched _ (pairIdx0 t) (pairIdx1 t)
      (applyGatePair_loc s u00 u01 u10 u11 t)
      (applyGatePair_det s u00 u01 u10 u11 t)
      (List.range (2 ^ (n - 1))) (List.nodup_range _) s i (pairIdx0 t i)
      (List.mem_range.mpr hi)
      (fun i2 _ hne => ⟨fun he => hne (pairIdx0_inj he).symm, pairIdx0_ne_pairIdx1 t i i2⟩)]
  simp only [applyGatePair]
  rw [Function.update_noteq (pairIdx0_ne_pairIdx1 t i i), Function.update_same]

theorem applyGate_at1 {n t i : ℕ} (ht : t < n) (hi : i < 2 ^ (n - 1))
    (u00 u01 u10 u11 : ℂ) (s : State) :
    applyGate (2 ^ n) u00 u01 u10 u11 t s (pairIdx1 t i) =
      cadd (cmul u10 (s (pairIdx0 t i))) (cmul u11 (s (pairIdx1 t i))) := by
  have hn : 0 < n := by omega
  unfold applyGate
  rw [half_pow hn,
    foldl_eval_touched _ (pairIdx0 t) (pairIdx1 t)
      (applyGatePair_loc s u00 u01 u10 u11 t)
      (applyGatePair_det s u00 u01 u10 u11 t)
      (List.range (2 ^ (n - 1))) (List.nodup_range _) s i (pairIdx1 t i)
      (List.mem_range.mpr hi)
      (fun i2 _ hne =>
        ⟨(pairIdx0_ne_pairIdx1 t i2 i).symm, fun he => hne (pairIdx1_inj he).symm⟩)]
  simp only [applyGatePair]
  rw [Function.update_same]

theorem applyGate_high {n t : ℕ} (ht : t < n) {j : ℕ} (hj : 2 ^ n ≤ j)
    (u00 u01 u10 u11 : ℂ) (s : State) :
    applyGate (2 ^ n) u00 u01 u10 u11 t s j = s j := by
  have hn : 0 < n := by omega
  unfold applyGate
  rw [half_pow hn]
  refine foldl_eval_untouched _ (pairIdx0 t) (pairIdx1 t)
    (applyGatePair_loc s u00 u01 u10 u11 t) _ s j ?_
  intro i2 hi2
  have h2 := List.mem_range.mp hi2
  exact ⟨by have := pairIdx0_lt ht h2; omega, by have := pairIdx1_lt ht h2; omega⟩

theorem applyControlledGatePair_loc (s : State) (ty : GateType) (ctrl t : ℕ) (ns : State)
    (i j : ℕ) (h0 : j ≠ pairIdx0 t i) (h1 : j ≠ pairIdx1 t i) :
    applyControlledGatePair s ty ctrl t ns i j = ns j := by
  simp only [applyControlledGatePair]
  by_cases hc : (pairIdx0 t i &&& (1 <<< ctrl)) ≠ 0
  · rw [if_pos hc]
    cases ty <;>
      simp only [Function.update_noteq h1, Function.update_noteq h0]
  · rw [if_neg hc]

theorem applyControlledGatePair_det (s : State) (ty : GateType) (ctrl t : ℕ)
    (ns ns2 : State) (i j : ℕ) (h : ns j = ns2 j) :
    applyControlledGatePair s ty ctrl t ns i j =
      applyControlledGatePair s ty ctrl t ns2 i j := by
  simp only [applyControlledGatePair]
  by_cases hc : (pairIdx0 t i &&& (1 <<< ctrl)) ≠ 0
  · rw [if_pos hc, if_pos hc]
    by_cases h1 : j = pairIdx1 t i
    · subst h1
      cases ty <;> simp only [Function.update_same] <;> try exact h
    · by_cases h0 : j = pairIdx0 t i
      · subst h0
        cases ty <;>
          simp only [Function.update_noteq h1, Function.update_same] <;> try exact h
      · cases ty <;>
          simp only [Function.update_noteq h1, Function.update_noteq h0] <;> try exact h
  · rw [if_neg hc, if_neg hc]; exact h

theorem applyControlledGate_at0 {n t i : ℕ} (ht : t < n) (hi : i < 2 ^ (n - 1))
    (ty : GateType) (ctrl : ℕ) (s : State) :
    applyControlledGate (2 ^ n) ty ctrl t s (pairIdx0 t i) =
      applyControlledGatePair s ty ctrl t s i (pairIdx0 t i) := by
  have hn : 0 < n := by omega
  unfold applyControlledGate
  rw [half_pow hn]
  exact foldl_eval_touched _ (pairIdx0 t) (pairIdx1 t)
    (applyControlledGatePair_loc s ty ctrl t)
    (applyControlledGatePair_det s ty ctrl t)
    (List.range (2 ^ (n - 1))) (List.nodup_range _) s i (pairIdx0 t i)
    (List.mem_range.mpr hi)
    (fun i2 _ hne => ⟨fun he => hne (pairIdx0_inj he).symm, pairIdx0_ne_pairIdx1 t i i2⟩)

theorem applyControlledGate_at1 {n t i : ℕ} (ht : t < n) (hi : i < 2 ^ (n - 1))
    (ty : GateType) (ctrl : ℕ) (s : State) :
    applyControlledGate (2 ^ n) ty ctrl t s (pairIdx1 t i) =
      applyControlledGatePair s ty ctrl t s i (pairIdx1 t i) := by
  have hn : 0 < n := by omega
  unfold applyControlledGate
  rw [half_pow hn]
  exact foldl_eval_touched _ (pairIdx0 t) (pairIdx1 t)
    (applyControlledGatePair_loc s ty ctrl t)
    (applyControlledGatePair_det s ty ctrl t)
    (List.range (2 ^ (n - 1))) (List.nodup_range _) s i (pairIdx1 t i)
    (List.mem_range.mpr hi)
    (fun i2 _ hne =>
      ⟨(pairIdx0_ne_pairIdx1 t i2 i).symm, fun he => hne (pairIdx1_inj he).symm⟩)

theorem applyControlledGate_high {n t : ℕ} (ht : t < n) {j : ℕ} (hj : 2 ^ n ≤ j)
    (ty : GateType) (ctrl : ℕ) (s : State) :
    applyControlledGate (2 ^ n) ty ctrl t s j = s j := by
  have hn : 0 < n := by omega
  unfold applyControlledGate
  rw [half_pow hn]
  refine foldl_eval_untouched _ (pairIdx0 t) (pairIdx1 t)
    (applyControlledGatePair_loc s ty ctrl t) _ s j ?_
  intro i2 hi2
  have h2 := List.mem_range.mp hi2
  exact ⟨by have := pairIdx0_lt ht h2; omega, by have := pairIdx1_lt ht h2; omega⟩

/-! ### Norm preservation machinery -/

theorem sum_pairs {n t : ℕ} (ht : t < n) (F : ℕ → ℝ) :
    ∑ i ∈ Finset.range (2 ^ (n - 1)), (F (pairIdx0 t i) + F (pairIdx1 t i)) =
      ∑ j ∈ Finset.range (2 ^ n), F j := by
  rw [Finset.sum_add_distrib]
  have h0 : ∑ i ∈ Finset.range (2 ^ (n - 1)), F (pairIdx0 t i)
      = ∑ j ∈ (Finset.range (2 ^ n)).filter (fun j => j / 2 ^ t % 2 = 0), F j := by
    refine Finset.sum_nbij' (pairIdx0 t) (invIdx t) ?_ ?_ ?_ ?_ ?_
    · intro a ha
      exact Finset.mem_filter.mpr
        ⟨Finset.mem_range.mpr (pairIdx0_lt ht (Finset.mem_range.mp ha)), pairIdx0_bit t a⟩
    · intro b hb
      exact Finset.mem_range.mpr (invIdx_lt ht (Finset.mem_range.mp (Finset.mem_filter.mp hb).1))
    · intro a _
      exact invIdx_pairIdx0 t a
    · intro b hb
      exact pairIdx0_invIdx (Finset.mem_filter.mp hb).2
    · intro a _
      rfl
  have h1 : ∑ i ∈ Finset.range (2 ^ (n - 1)), F (pairIdx1 t i)
      = ∑ j ∈ (Finset.range (2 ^ n)).filter (fun j => ¬ j / 2 ^ t % 2 = 0), F j := by
    refine Finset.sum_nbij' (pairIdx1 t) (invIdx t) ?_ ?_ ?_ ?_ ?_
    · intro a ha
      refine Finset.mem_filter.mpr
        ⟨Finset.mem_range.mpr (pairIdx1_lt ht (Finset.mem_range.mp ha)), ?_⟩
      have := pairIdx1_bit t a
      omega
    · intro b hb
      exact Finset.mem_range.mpr (invIdx_lt ht (Finset.mem_range.mp (Finset.mem_filter.mp hb).1))
    · intro a _
      exact invIdx_pairIdx1 t a
    · intro b hb
      have hbit : b / 2 ^ t % 2 = 1 := by
        have := (Finset.mem_filter.mp hb).2
        omega
      exact pairIdx1_invIdx hbit
    · intro a _
      rfl
  rw [h0, h1, Finset.sum_filter_add_sum_filter_not]

theorem normSum_applyGate {n t : ℕ} (ht : t < n) (u00 u01 u10 u11 : ℂ)
    (hpair : ∀ a0 a1 : ℂ,
      magSq (cadd (cmul u00 a0) (cmul u01 a1)) + magSq (cadd (cmul u10 a0) (cmul u11 a1)) =
        magSq a0 + magSq a1)
    (s : State) :
    normSum n (applyGate (2 ^ n) u00 u01 u10 u11 t s) = normSum n s := by
  unfold normSum
  rw [← sum_pairs ht (fun j => magSq (applyGate (2 ^ n) u00 u01 u10 u11 t s j)),
    ← sum_pairs ht (fun j => magSq (s j))]
  refine Finset.sum_congr rfl ?_
  intro i hi
  have hi2 := Finset.mem_range.mp hi
  rw [applyGate_at0 ht hi2, applyGate_at1 ht hi2, hpair]

theorem normSum_applyControlledGate {n t : ℕ} (ht : t < n) (ty : GateType) (ctrl : ℕ)
    (s : State) :
    normSum n (applyControlledGate (2 ^ n) ty ctrl t s) = normSum n s := by
  unfold normSum
  rw [← sum_pairs ht (fun j => magSq (applyControlledGate (2 ^ n) ty ctrl t s j)),
    ← sum_pairs ht (fun j => magSq (s j))]
  refine Finset.sum_congr rfl ?_
  intro i hi
  have hi2 := Finset.mem_range.mp hi
  rw [applyControlledGate_at0 ht hi2, applyControlledGate_at1 ht hi2]
  by_cases hc : (pairIdx0 t i &&& (1 <<< ctrl)) ≠ 0
  · simp only [applyControlledGatePair, if_pos hc]
    cases ty <;>
      simp only [Function.update_same, Function.update_noteq (pairIdx0_ne_pairIdx1 t i i)] <;>
      dsimp only [magSq, mulS] <;> ring
  · simp only [applyControlledGatePair, if_neg hc]

theorem pairNorm_H : ∀ a0 a1 : ℂ,
    magSq (cadd (cmul ⟨INV_SQRT_2, 0⟩ a0) (cmul ⟨INV_SQRT_2, 0⟩ a1)) +
      magSq (cadd (cmul ⟨INV_SQRT_2, 0⟩ a0) (cmul ⟨-INV_SQRT_2, 0⟩ a1)) =
        magSq a0 + magSq a1 := by
  intro a0 a1
  have h : INV_SQRT_2 * INV_SQRT_2 = 1 / 2 := by
    rw [INV_SQRT_2, div_mul_div_comm, one_mul, Real.mul_self_sqrt] <;> norm_num
  dsimp only [magSq, cadd, cmul]
  linear_combination (2 * (a0.re ^ 2 + a0.im ^ 2 + a1.re ^ 2 + a1.im ^ 2)) * h

theorem pairNorm_X : ∀ a0 a1 : ℂ,
    magSq (cadd (cmul czero a0) (cmul cone a1)) +
      magSq (cadd (cmul cone a0) (cmul czero a1)) = magSq a0 + magSq a1 := by
  intro a0 a1
  dsimp only [magSq, cadd, cmul, czero, cone]
  ring

theorem pairNorm_Y : ∀ a0 a1 : ℂ,
    magSq (cadd (cmul czero a0) (cmul ⟨0, -1⟩ a1)) +
      magSq (cadd (cmul ⟨0, 1⟩ a0) (cmul czero a1)) = magSq a0 + magSq a1 := by
  intro a0 a1
  dsimp only [magSq, cadd, cmul, czero]
  ring

theorem pairNorm_Z : ∀ a0 a1 : ℂ,
    magSq (cadd (cmul cone a0) (cmul czero a1)) +
      magSq (cadd (cmul czero a0) (cmul ⟨-1, 0⟩ a1)) = magSq a0 + magSq a1 := by
  intro a0 a1
  dsimp only [magSq, cadd, cmul, czero, cone]
  ring

theorem pairNorm_S : ∀ a0 a1 : ℂ,
    magSq (cadd (cmul cone a0) (cmul czero a1)) +
      magSq (cadd (cmul czero a0) (cmul ⟨0, 1⟩ a1)) = magSq a0 + magSq a1 := by
  intro a0 a1
  dsimp only [magSq, cadd, cmul, czero, cone]
  ring

theorem pairNorm_T : ∀ a0 a1 : ℂ,
    magSq (cadd (cmul cone a0) (cmul czero a1)) +
      magSq (cadd (cmul czero a0) (cmul tVal a1)) = magSq a0 + magSq a1 := by
  intro a0 a1
  have h : Real.sin (Real.pi / 4) ^ 2 + Real.cos (Real.pi / 4) ^ 2 = 1 :=
    Real.sin_sq_add_cos_sq _
  dsimp only [magSq, cadd, cmul, czero, cone, tVal]
  linear_combination (a1.re ^ 2 + a1.im ^ 2) * h

theorem normSum_initState (n : ℕ) : normSum n initState = 1 := by
  unfold normSum initState
  rw [Finset.sum_eq_single_of_mem 0
    (Finset.mem_range.mpr (Nat.pos_pow_of_pos n (by norm_num)))]
  · dsimp only [magSq, cone]
    norm_num
  · intro b _ hb
    rw [if_neg hb]
    dsimp only [magSq, czero]
    norm_num

theorem normSum_stepGate (n : ℕ) (s : State) (g : Gate) :
    normSum n (stepGate n s g) = normSum n s := by
  obtain ⟨ty, tgt, ctl⟩ := g
  unfold stepGate
  by_cases hskip : n ≤ tgt ∨ ∃ c ∈ ctl, n ≤ c
  · simp only [if_pos hskip]
  · simp only [if_neg hskip]
    push_neg at hskip
    have ht : tgt < n := hskip.1
    have h2n : (1 <<< n) = 2 ^ n := Nat.one_shiftLeft n
    cases ty with
    | H => rw [h2n]; exact normSum_applyGate ht _ _ _ _ pairNorm_H s
    | X => rw [h2n]; exact normSum_applyGate ht _ _ _ _ pairNorm_X s
    | Y => rw [h2n]; exact normSum_applyGate ht _ _ _ _ pairNorm_Y s
    | Z => rw [h2n]; exact normSum_applyGate ht _ _ _ _ pairNorm_Z s
    | S => rw [h2n]; exact normSum_applyGate ht _ _ _ _ pairNorm_S s
    | T => rw [h2n]; exact normSum_applyGate ht _ _ _ _ pairNorm_T s
    | CX =>
      cases ctl with
      | some c => rw [h2n]; exact normSum_applyControlledGate ht _ _ s
      | none => rfl
    | CY =>
      cases ctl with
      | some c => rw [h2n]; exact normSum_applyControlledGate ht _ _ s
      | none => rfl
    | CZ =>
      cases ctl with
      | some c => rw [h2n]; exact normSum_applyControlledGate ht _ _ s
      | none => rfl
    | CS =>
      cases ctl with
      | some c => rw [h2n]; exact normSum_applyControlledGate ht _ _ s
      | none => rfl

theorem normSum_foldl (n : ℕ) (l : List Gate) (s : State) :
    normSum n (l.foldl (stepGate n) s) = normSum n s := by
  induction l generalizing s with
  | nil => rfl
  | cons g l ih => rw [List.foldl_cons, ih, normSum_stepGate]

theorem normSum_simulate (n : ℕ) (circuit : List Gate) :
    normSum n (simulate n circuit) = 1 := by
  unfold simulate
  rw [normSum_foldl, normSum_initState]

/-- C1: for every qubit count and every well-formed circuit, the sum of squared
magnitudes of the simulated amplitude vector equals 1 (hence lies within the
1e-6 tolerance), and the squared-magnitude sum is preserved by every individual
gate application of the simulation fold. -/
theorem claim_norm_preservation (n : ℕ) (circuit : List Gate)
    (hwf : ∀ g ∈ circuit, validGate n g) :
    (∀ (s : State) (g : Gate), normSum n (stepGate n s g) = normSum n s) ∧
      normSum n (simulate n circuit) = 1 ∧
      |normSum n (simulate n circuit) - 1| ≤ 1e-6 := by
  refine ⟨fun s g => normSum_stepGate n s g, normSum_simulate n circuit, ?_⟩
  rw [normSum_simulate n circuit]
  norm_num

/-- C1 witness: the Bell circuit on two qubits is well formed and the theorem
applies to it. -/
theorem claim_norm_preservation_witness :
    (∀ g ∈ [Gate.mk .H 0 none, Gate.mk .CX 1 (some 0)], validGate 2 g) ∧
      normSum 2 (simulate 2 [Gate.mk .H 0 none, Gate.mk .CX 1 (some 0)]) = 1 := by
  have hwf : ∀ g ∈ [Gate.mk .H 0 none, Gate.mk .CX 1 (some 0)], validGate 2 g := by
    intro g hg
    rcases List.mem_cons.mp hg with rfl | hg2
    · exact ⟨by norm_num, by intro c hc; cases hc⟩
    · rcases List.mem_cons.mp hg2 with rfl | hg3
      · refine ⟨by norm_num, ?_⟩
        intro c hc
        have : c = 0 := by cases hc; rfl
        omega
      · cases hg3
  exact ⟨hwf, (claim_norm_preservation 2 _ hwf).2.1⟩

/-! ### Self-controlled gates and out-of-range gates -/

theorem pairIdx0_and_two_pow (t i : ℕ) : pairIdx0 t i &&& (1 <<< t) = 0 := by
  refine Nat.eq_of_testBit_eq (fun k => ?_)
  rw [Nat.testBit_and, Nat.zero_testBit, Nat.one_shiftLeft]
  by_cases hk : t = k
  · subst hk
    simp [Nat.testBit_to_div_mod, pairIdx0_bit]
  · rw [Nat.testBit_two_pow_of_ne hk]
    simp

theorem applyControlledGate_self_ctrl (numStates : ℕ) (ty : GateType) (t : ℕ) (s : State) :
    applyControlledGate numStates ty t t s = s := by
  unfold applyControlledGate
  have key : ∀ (l : List ℕ) (s0 : State),
      l.foldl (applyControlledGatePair s ty t t) s0 = s0 := by
    intro l
    induction l with
    | nil => intro s0; rfl
    | cons a l ih =>
        intro s0
        rw [List.foldl_cons]
        have hstep : applyControlledGatePair s ty t t s0 a = s0 := by
          simp only [applyControlledGatePair]
          rw [if_neg (by simp [pairIdx0_and_two_pow])]
        rw [hstep, ih s0]
  exact key _ s

/-- C10: a controlled gate whose control index equals its target index acts as
the identity on the amplitude vector, because the control bit is tested on
`idx0`, whose target bit is always clear, so no pair is ever transformed. -/
theorem claim_self_control_identity :
    ∀ (n t : ℕ) (s : State),
      stepGate n s (Gate.mk .CX t (some t)) = s ∧
      stepGate n s (Gate.mk .CY t (some t)) = s ∧
      stepGate n s (Gate.mk .CZ t (some t)) = s ∧
      stepGate n s (Gate.mk .CS t (some t)) = s := by
  intro n t s
  refine ⟨?_, ?_, ?_, ?_⟩ <;>
    · unfold stepGate
      by_cases hskip : n ≤ t ∨ ∃ c ∈ some t, n ≤ c
      · rw [if_pos hskip]
      · rw [if_neg hskip]
        exact applyControlledGate_self_ctrl _ _ t s

/-- C2 counterexample: the out-of-range gate `X` on wire 5 of a 1-qubit system
reaches the simulation fold and is silently skipped there (the fold step is
the identity on the state, and simulating the one-gate circuit equals
simulating the empty circuit); no construction-time validation rejects it. -/
theorem claim_validation_counterexample :
    stepGate 1 initState (Gate.mk .X 5 none) = initState ∧
    simulate 1 [Gate.mk .X 5 none] = simulate 1 [] := by
  have hstep : stepGate 1 initState (Gate.mk .X 5 none) = initState := by
    unfold stepGate
    rw [if_pos (Or.inl (by norm_num))]
  exact ⟨hstep, by unfold simulate; simp only [List.foldl_cons, List.foldl_nil]; exact hstep⟩

/-- C2 (amended): there is no circuit-construction-time validation; instead the
simulation fold itself checks every gate and silently skips any whose target
or control is `≥ N`, leaving the state unchanged, so an out-of-range gate is
never applied and removing it from the circuit does not change the result. -/
theorem claim_out_of_range_skipped (n : ℕ) (g : Gate)
    (hout : n ≤ g.target ∨ ∃ c ∈ g.control, n ≤ c) :
    (∀ s : State, stepGate n s g = s) ∧
    ∀ c1 c2 : List Gate, simulate n (c1 ++ g :: c2) = simulate n (c1 ++ c2) := by
  have hstep : ∀ s : State, stepGate n s g = s := by
    intro s
    unfold stepGate
    rw [if_pos hout]
  refine ⟨hstep, ?_⟩
  intro c1 c2
  unfold simulate
  rw [List.foldl_append, List.foldl_append, List.foldl_cons, hstep]

/-- C2 witness: the amended theorem applies to the concrete out-of-range gate
`X` on wire 5 of a 1-qubit system. -/
theorem claim_out_of_range_skipped_witness :
    ((1:ℕ) ≤ (Gate.mk .X 5 none).target ∨ ∃ c ∈ (Gate.mk .X 5 none).control, 1 ≤ c) ∧
      ∀ s : State, stepGate 1 s (Gate.mk .X 5 none) = s :=
  ⟨Or.inl (by norm_num), (claim_out_of_range_skipped 1 _ (Or.inl (by norm_num))).1⟩

/-! ### Controlled-Y semantics -/

theorem and_one_shiftLeft_ne_zero (x c : ℕ) :
    (x &&& (1 <<< c)) ≠ 0 ↔ x.testBit c = true := by
  rw [Nat.one_shiftLeft]
  constructor
  · intro h
    obtain ⟨k, hk⟩ := Nat.ne_zero_implies_bit_true h
    rw [Nat.testBit_and, Bool.and_eq_true] at hk
    have hck : c = k := by
      by_contra hck
      rw [Nat.testBit_two_pow_of_ne hck] at hk
      exact Bool.false_ne_true hk.2
    exact hck ▸ hk.1
  · intro h hzero
    have hbit : Nat.testBit (x &&& 2 ^ c) c = false := by
      rw [hzero]; exact Nat.zero_testBit c
    rw [Nat.testBit_and, h, Nat.testBit_two_pow_self] at hbit
    simp at hbit

theorem mk_eq_negI_mul (a : ℂ) : (⟨a.im, -a.re⟩ : ℂ) = -Complex.I * a := by
  apply Complex.ext <;>
    simp [Complex.mul_re, Complex.mul_im]

theorem mk_eq_I_mul (a : ℂ) : (⟨-a.im, a.re⟩ : ℂ) = Complex.I * a := by
  apply Complex.ext <;>
    simp [Complex.mul_re, Complex.mul_im]

/-- C4: on every pair `(idx0, idx1 = idx0 | (1<<t))` whose control bit is set
in `idx0`, the CY gate maps `(a0, a1)` to `(-i*a1, i*a0)` — the single-qubit
Y matrix (`u01 = -i`, `u10 = i`) restricted to that 2-dimensional subspace —
and it leaves pairs with the control bit unset unchanged. -/
theorem claim_controlled_Y_semantics (n c t : ℕ) (hct : c ≠ t) (hc : c < n) (ht : t < n)
    (s : State) (i : ℕ) (hi : i < 2 ^ (n - 1)) :
    pairIdx1 t i = pairIdx0 t i ||| (1 <<< t) ∧
    (Nat.testBit (pairIdx0 t i) c = true →
      stepGate n s (Gate.mk .CY t (some c)) (pairIdx0 t i) =
          -Complex.I * s (pairIdx1 t i) ∧
        stepGate n s (Gate.mk .CY t (some c)) (pairIdx1 t i) =
          Complex.I * s (pairIdx0 t i)) ∧
    (Nat.testBit (pairIdx0 t i) c = false →
      stepGate n s (Gate.mk .CY t (some c)) (pairIdx0 t i) = s (pairIdx0 t i) ∧
        stepGate n s (Gate.mk .CY t (some c)) (pairIdx1 t i) = s (pairIdx1 t i)) := by
  have hgate : stepGate n s (Gate.mk .CY t (some c)) =
      applyControlledGate (2 ^ n) .CY c t s := by
    unfold stepGate
    rw [if_neg (by
      push_neg
      refine ⟨show t < n by omega, ?_⟩
      intro c2 hc2
      have : c2 = c := by cases hc2; rfl
      omega)]
    rw [Nat.one_shiftLeft]
  refine ⟨rfl, ?_, ?_⟩
  · intro hbit
    have hcond : (pairIdx0 t i &&& (1 <<< c)) ≠ 0 :=
      (and_one_shiftLeft_ne_zero _ c).mpr hbit
    constructor
    · rw [hgate, applyControlledGate_at0 ht hi]
      simp only [applyControlledGatePair, if_pos hcond]
      rw [Function.update_noteq (pairIdx0_ne_pairIdx1 t i i), Function.update_same]
      exact mk_eq_negI_mul _
    · rw [hgate, applyControlledGate_at1 ht hi]
      simp only [applyControlledGatePair, if_pos hcond]
      rw [Function.update_same]
      exact mk_eq_I_mul _
  · intro hbit
    have hcond : ¬ (pairIdx0 t i &&& (1 <<< c)) ≠ 0 := by
      intro hcond
      rw [(and_one_shiftLeft_ne_zero _ c).mp hcond] at hbit
      simp at hbit
    constructor
    · rw [hgate, applyControlledGate_at0 ht hi]
      simp only [applyControlledGatePair, if_neg hcond]
    · rw [hgate, applyControlledGate_at1 ht hi]
      simp only [applyControlledGatePair, if_neg hcond]

/-- C4 witness: concrete instance with two qubits, control 0, target 1,
loop counter 1 (whose pair is `(1, 3)`, control bit set). -/
theorem claim_controlled_Y_semantics_witness :
    ((0:ℕ) ≠ 1 ∧ (0:ℕ) < 2 ∧ (1:ℕ) < 2 ∧ (1:ℕ) < 2 ^ (2 - 1)) ∧
    (pairIdx1 1 1 = pairIdx0 1 1 ||| (1 <<< 1) ∧
      (Nat.testBit (pairIdx0 1 1) 0 = true →
        stepGate 2 initState (Gate.mk .CY 1 (some 0)) (pairIdx0 1 1) =
            -Complex.I * initState (pairIdx1 1 1) ∧
          stepGate 2 initState (Gate.mk .CY 1 (some 0)) (pairIdx1 1 1) =
            Complex.I * initState (pairIdx0 1 1)) ∧
      (Nat.testBit (pairIdx0 1 1) 0 = false →
        stepGate 2 initState (Gate.mk .CY 1 (some 0)) (pairIdx0 1 1) =
            initState (pairIdx0 1 1) ∧
          stepGate 2 initState (Gate.mk .CY 1 (some 0)) (pairIdx1 1 1) =
            initState (pairIdx1 1 1))) :=
  ⟨⟨by decide, by decide, by decide, by decide⟩,
    claim_controlled_Y_semantics 2 0 1 (by decide) (by decide) (by decide) initState 1
      (by decide)⟩

/-! ### Toggling a bit with XOR -/

theorem or_two_pow_of_bit_false {x t : ℕ} (h : x / 2 ^ t % 2 = 0) :
    x ||| 2 ^ t = x + 2 ^ t := by
  have hmod : x % 2 ^ t < 2 ^ t := Nat.mod_lt _ (Nat.pos_pow_of_pos t (by norm_num))
  have hr : x % 2 ^ (t + 1) = x % 2 ^ t := by
    rw [mod_succ_split, h]; ring
  have hq := Nat.div_add_mod x (2 ^ (t + 1))
  have hlt1 : x % 2 ^ t < 2 ^ (t + 1) := by
    have : (2:ℕ) ^ (t + 1) = 2 ^ t + 2 ^ t := by ring
    omega
  have hlt2 : 2 ^ t + x % 2 ^ t < 2 ^ (t + 1) := by
    have : (2:ℕ) ^ (t + 1) = 2 ^ t + 2 ^ t := by ring
    omega
  have hor : (2:ℕ) ^ t ||| x % 2 ^ t = 2 ^ t + x % 2 ^ t := by
    have := Nat.mul_add_lt_is_or (i := t) (a := 1) hmod
    simpa using this.symm
  calc x ||| 2 ^ t
      = (2 ^ (t + 1) * (x / 2 ^ (t + 1)) + x % 2 ^ t) ||| 2 ^ t := by rw [← hr]; congr 1; omega
    _ = ((2 ^ (t + 1) * (x / 2 ^ (t + 1))) ||| (x % 2 ^ t)) ||| 2 ^ t := by
        rw [← Nat.mul_add_lt_is_or hlt1]
    _ = (2 ^ (t + 1) * (x / 2 ^ (t + 1))) ||| (2 ^ t + x % 2 ^ t) := by
        rw [Nat.or_assoc, Nat.or_comm (x % 2 ^ t) (2 ^ t), hor]
    _ = 2 ^ (t + 1) * (x / 2 ^ (t + 1)) + (2 ^ t + x % 2 ^ t) := by
        rw [← Nat.mul_add_lt_is_or hlt2]
    _ = x + 2 ^ t := by omega

theorem xor_eq_or_of_bit_false {x t : ℕ} (h : x / 2 ^ t % 2 = 0) :
    x ^^^ 2 ^ t = x ||| 2 ^ t := by
  have hbit : x.testBit t = false := by
    rw [Nat.testBit_to_div_mod, h]
    simp
  refine Nat.eq_of_testBit_eq (fun k => ?_)
  rw [Nat.testBit_xor, Nat.testBit_or]
  by_cases hk : t = k
  · subst hk
    rw [hbit, Nat.testBit_two_pow_self]
    rfl
  · rw [Nat.testBit_two_pow_of_ne hk]
    cases x.testBit k <;> rfl

theorem xor_two_pow_of_bit_false {x t : ℕ} (h : x / 2 ^ t % 2 = 0) :
    x ^^^ 2 ^ t = x + 2 ^ t := by
  rw [xor_eq_or_of_bit_false h, or_two_pow_of_bit_false h]

theorem sub_two_pow_bit_false {x t : ℕ} (h : x / 2 ^ t % 2 = 1) :
    (x - 2 ^ t) / 2 ^ t % 2 = 0 ∧ 2 ^ t ≤ x := by
  have hmod : x % 2 ^ t < 2 ^ t := Nat.mod_lt _ (Nat.pos_pow_of_pos t (by norm_num))
  have hr : x % 2 ^ (t + 1) = 2 ^ t + x % 2 ^ t := by
    rw [mod_succ_split, h]; ring
  have hq := Nat.div_add_mod x (2 ^ (t + 1))
  have hle : 2 ^ t ≤ x := by omega
  have hsub : x - 2 ^ t = 2 ^ (t + 1) * (x / 2 ^ (t + 1)) + x % 2 ^ t := by omega
  have hre : 2 ^ (t + 1) * (x / 2 ^ (t + 1)) = 2 ^ t * (2 * (x / 2 ^ (t + 1))) := by ring
  refine ⟨?_, hle⟩
  rw [hsub, hre, Nat.mul_add_div (Nat.pos_pow_of_pos t (by norm_num)),
    Nat.div_eq_of_lt hmod]
  omega

theorem xor_two_pow_of_bit_true {x t : ℕ} (h : x / 2 ^ t % 2 = 1) :
    x ^^^ 2 ^ t = x - 2 ^ t := by
  obtain ⟨hbit, hle⟩ := sub_two_pow_bit_false h
  have hx : (x - 2 ^ t) ^^^ 2 ^ t = x := by
    rw [xor_two_pow_of_bit_false hbit]
    omega
  calc x ^^^ 2 ^ t = ((x - 2 ^ t) ^^^ 2 ^ t) ^^^ 2 ^ t := by rw [hx]
    _ = x - 2 ^ t := by rw [Nat.xor_assoc, Nat.xor_self, Nat.xor_zero]

theorem testBit_xor_two_pow_self (x t : ℕ) :
    (x ^^^ 2 ^ t).testBit t = ! x.testBit t := by
  rw [Nat.testBit_xor, Nat.testBit_two_pow_self, Bool.xor_true]

theorem testBit_xor_two_pow_ne {c t : ℕ} (hct : c ≠ t) (x : ℕ) :
    (x ^^^ 2 ^ t).testBit c = x.testBit c := by
  rw [Nat.testBit_xor, Nat.testBit_two_pow_of_ne (fun h => hct h.symm), Bool.xor_false]

theorem xor_two_pow_twice (x t : ℕ) : (x ^^^ 2 ^ t) ^^^ 2 ^ t = x := by
  rw [Nat.xor_assoc, Nat.xor_self, Nat.xor_zero]

theorem xor_two_pow_comm (x a b : ℕ) :
    (x ^^^ 2 ^ a) ^^^ 2 ^ b = (x ^^^ 2 ^ b) ^^^ 2 ^ a := by
  rw [Nat.xor_assoc, Nat.xor_assoc, Nat.xor_comm (2 ^ a) (2 ^ b)]

theorem xor_two_pow_lt {n t x : ℕ} (ht : t < n) (hx : x < 2 ^ n) :
    x ^^^ 2 ^ t < 2 ^ n :=
  Nat.xor_lt_two_pow hx (Nat.pow_lt_pow_right (by norm_num) ht)

/-! ### A pointwise normal form for gate application

`pointAction` is the mathematical description of one conditional two-level
unitary: on indices below `2^n` it combines each amplitude with its partner
at the toggled target bit; elsewhere it is the identity.  Both source loops
are proved equal to it. -/

theorem pointAction_apply (n : ℕ) (u00 u01 u10 u11 : ℂ) (P : ℕ → Bool) (t : ℕ)
    (s : State) {j : ℕ} (hj : j < 2 ^ n) :
    pointAction n u00 u01 u10 u11 P t s j =
      pointCoefA u00 u11 P t j * s j + pointCoefB u01 u10 P t j * s (j ^^^ 2 ^ t) := by
  unfold pointAction pointCoefA pointCoefB
  rw [if_pos hj]
  cases hP : P j <;> cases hb : j.testBit t <;> simp [hP, hb] <;> ring

theorem pointAction_high (n : ℕ) (u00 u01 u10 u11 : ℂ) (P : ℕ → Bool) (t : ℕ)
    (s : State) {j : ℕ} (hj : ¬ j < 2 ^ n) :
    pointAction n u00 u01 u10 u11 P t s j = s j := by
  unfold pointAction
  rw [if_neg hj]

theorem pointAction_false (n : ℕ) (u00 u01 u10 u11 : ℂ) (t : ℕ) (s : State) :
    pointAction n u00 u01 u10 u11 (fun _ => false) t s = s := by
  funext j
  unfold pointAction
  by_cases hj : j < 2 ^ n
  · rw [if_pos hj, if_neg (by simp)]
  · rw [if_neg hj]

theorem testBit_true_div_mod {x t : ℕ} (h : x.testBit t = true) : x / 2 ^ t % 2 = 1 := by
  rwa [Nat.testBit_to_div_mod, decide_eq_true_eq] at h

theorem testBit_false_div_mod {x t : ℕ} (h : x.testBit t = false) : x / 2 ^ t % 2 = 0 := by
  rw [Nat.testBit_to_div_mod, decide_eq_false_iff_not] at h
  omega

theorem mulS_neg_one (a : ℂ) : mulS a (-1) = -a := by
  apply Complex.ext <;> simp [mulS]

theorem applyGate_eq_pointAction {n t : ℕ} (ht : t < n) (u00 u01 u10 u11 : ℂ) (s : State) :
    applyGate (2 ^ n) u00 u01 u10 u11 t s =
      pointAction n u00 u01 u10 u11 (fun _ => true) t s := by
  funext j
  by_cases hj : j < 2 ^ n
  · have hP : pointAction n u00 u01 u10 u11 (fun _ => true) t s j =
        if j.testBit t then u10 * s (j ^^^ 2 ^ t) + u11 * s j
        else u00 * s j + u01 * s (j ^^^ 2 ^ t) := by
      unfold pointAction
      rw [if_pos hj]
      norm_num
    rw [hP]
    have hix : invIdx t j < 2 ^ (n - 1) := invIdx_lt ht hj
    by_cases hb : j.testBit t
    · have hb1 : j / 2 ^ t % 2 = 1 := testBit_true_div_mod hb
      have hrep : pairIdx1 t (invIdx t j) = j := pairIdx1_invIdx hb1
      have hxor : j ^^^ 2 ^ t = j - 2 ^ t := xor_two_pow_of_bit_true hb1
      have hp0 : pairIdx0 t (invIdx t j) = j - 2 ^ t := by
        have := pairIdx1_eq t (invIdx t j)
        omega
      rw [if_pos hb]
      calc applyGate (2 ^ n) u00 u01 u10 u11 t s j
          = applyGate (2 ^ n) u00 u01 u10 u11 t s (pairIdx1 t (invIdx t j)) := by rw [hrep]
        _ = cadd (cmul u10 (s (pairIdx0 t (invIdx t j))))
              (cmul u11 (s (pairIdx1 t (invIdx t j)))) := applyGate_at1 ht hix _ _ _ _ _
        _ = u10 * s (j ^^^ 2 ^ t) + u11 * s j := by
            rw [hrep, hp0, hxor, cadd_eq, cmul_eq, cmul_eq]
    · have hb0 : j / 2 ^ t % 2 = 0 := testBit_false_div_mod (Bool.eq_false_iff.mpr hb ▸ rfl)
      have hrep : pairIdx0 t (invIdx t j) = j := pairIdx0_invIdx hb0
      have hxor : j ^^^ 2 ^ t = j + 2 ^ t := xor_two_pow_of_bit_false hb0
      have hp1 : pairIdx1 t (invIdx t j) = j + 2 ^ t := by
        have := pairIdx1_eq t (invIdx t j)
        omega
      rw [if_neg hb]
      calc applyGate (2 ^ n) u00 u01 u10 u11 t s j
          = applyGate (2 ^ n) u00 u01 u10 u11 t s (pairIdx0 t (invIdx t j)) := by rw [hrep]
        _ = cadd (cmul u00 (s (pairIdx0 t (invIdx t j))))
              (cmul u01 (s (pairIdx1 t (invIdx t j)))) := applyGate_at0 ht hix _ _ _ _ _
        _ = u00 * s j + u01 * s (j ^^^ 2 ^ t) := by
            rw [hrep, hp1, hxor, cadd_eq, cmul_eq, cmul_eq]
  · rw [pointAction_high _ _ _ _ _ _ _ _ hj, applyGate_high ht (by omega) _ _ _ _ _]

theorem applyControlledGate_eq_pointAction {n c t : ℕ} (ht : t < n) (hct : c ≠ t)
    (ty : GateType) (s : State) :
    applyControlledGate (2 ^ n) ty c t s =
      pointAction n (ctrlMat ty).1 (ctrlMat ty).2.1 (ctrlMat ty).2.2.1 (ctrlMat ty).2.2.2
        (fun j => j.testBit c) t s := by
  funext j
  by_cases hj : j < 2 ^ n
  · have hix : invIdx t j < 2 ^ (n - 1) := invIdx_lt ht hj
    have hPdef : pointAction n (ctrlMat ty).1 (ctrlMat ty).2.1 (ctrlMat ty).2.2.1
        (ctrlMat ty).2.2.2 (fun j => j.testBit c) t s j =
        if j.testBit c then
          (if j.testBit t then (ctrlMat ty).2.2.1 * s (j ^^^ 2 ^ t) + (ctrlMat ty).2.2.2 * s j
           else (ctrlMat ty).1 * s j + (ctrlMat ty).2.1 * s (j ^^^ 2 ^ t))
        else s j := by
      unfold pointAction
      rw [if_pos hj]
    rw [hPdef]
    by_cases hb : j.testBit t
    · have hb1 : j / 2 ^ t % 2 = 1 := testBit_true_div_mod hb
      have hrep : pairIdx1 t (invIdx t j) = j := pairIdx1_invIdx hb1
      have hxor : j ^^^ 2 ^ t = j - 2 ^ t := xor_two_pow_of_bit_true hb1
      have hp0 : pairIdx0 t (invIdx t j) = j - 2 ^ t := by
        have := pairIdx1_eq t (invIdx t j)
        omega
      have hctl : (pairIdx0 t (invIdx t j) &&& (1 <<< c) ≠ 0) ↔ j.testBit c = true := by
        rw [and_one_shiftLeft_ne_zero, hp0, ← hxor, testBit_xor_two_pow_ne hct]
      have hLHS : applyControlledGate (2 ^ n) ty c t s j =
          applyControlledGatePair s ty c t s (invIdx t j) (pairIdx1 t (invIdx t j)) := by
        have h1 := applyControlledGate_at1 ht hix ty c s
        rw [hrep] at h1
        rw [h1, hrep]
      rw [hLHS]
      by_cases hctrl : j.testBit c
      · rw [if_pos hctrl, if_pos hb]
        simp only [applyControlledGatePair, if_pos (hctl.mpr hctrl)]
        cases ty <;>
          simp only [Function.update_same] <;>
          simp only [hrep, hp0, ← hxor] <;>
          dsimp only [ctrlMat] <;>
          first
            | rfl
            | (rw [mulS_neg_one]; ring)
            | (rw [mk_eq_I_mul]; ring)
            | (rw [mk_eq_negI_mul]; ring)
            | ring
      · rw [if_neg hctrl]
        have hcond : ¬ (pairIdx0 t (invIdx t j) &&& (1 <<< c) ≠ 0) := by
          intro hcond
          exact hctrl (hctl.mp hcond)
        simp only [applyControlledGatePair, if_neg hcond]
        rw [hrep]
    · have hb0 : j / 2 ^ t % 2 = 0 := testBit_false_div_mod (Bool.eq_false_iff.mpr hb ▸ rfl)
      have hrep : pairIdx0 t (invIdx t j) = j := pairIdx0_invIdx hb0
      have hxor : j ^^^ 2 ^ t = j + 2 ^ t := xor_two_pow_of_bit_false hb0
      have hp1 : pairIdx1 t (invIdx t j) = j + 2 ^ t := by
        have := pairIdx1_eq t (invIdx t j)
        omega
      have hctl : (pairIdx0 t (invIdx t j) &&& (1 <<< c) ≠ 0) ↔ j.testBit c = true := by
        rw [and_one_shiftLeft_ne_zero, hrep]
      have hLHS : applyControlledGate (2 ^ n) ty c t s j =
          applyControlledGatePair s ty c t s (invIdx t j) (pairIdx0 t (invIdx t j)) := by
        have h1 := applyControlledGate_at0 ht hix ty c s
        rw [hrep] at h1
        rw [h1, hrep]
      rw [hLHS]
      by_cases hctrl : j.testBit c
      · rw [if_pos hctrl, if_neg hb]
        simp only [applyControlledGatePair, if_pos (hctl.mpr hctrl)]
        cases ty <;>
          simp only [Function.update_same,
            Function.update_noteq (pairIdx0_ne_pairIdx1 t (invIdx t j) (invIdx t j))] <;>
          simp only [hrep, hp1, ← hxor] <;>
          dsimp only [ctrlMat] <;>
          first
            | rfl
            | (rw [mulS_neg_one]; ring)
            | (rw [mk_eq_I_mul]; ring)
            | (rw [mk_eq_negI_mul]; ring)
            | ring
      · rw [if_neg hctrl]
        have hcond : ¬ (pairIdx0 t (invIdx t j) &&& (1 <<< c) ≠ 0) := by
          intro hcond
          exact hctrl (hctl.mp hcond)
        simp only [applyControlledGatePair, if_neg hcond]
        rw [hrep]
  · rw [pointAction_high _ _ _ _ _ _ _ _ hj, applyControlledGate_high ht (by omega) _ _ _]

theorem mk_real (x : ℝ) : (⟨x, 0⟩ : ℂ) = (x : ℂ) := by
  apply Complex.ext <;> simp

theorem pointAction_true_eval {n t : ℕ} (u00 u01 u10 u11 : ℂ) (s : State) {j : ℕ}
    (hj : j < 2 ^ n) :
    pointAction n u00 u01 u10 u11 (fun _ => true) t s j =
      if j.testBit t then u10 * s (j ^^^ 2 ^ t) + u11 * s j
      else u00 * s j + u01 * s (j ^^^ 2 ^ t) := by
  unfold pointAction
  rw [if_pos hj]
  norm_num

theorem pointAction_twice {n t : ℕ} (ht : t < n) (u00 u01 u10 u11 : ℂ)
    (h1 : u00 * u00 + u01 * u10 = 1) (h2 : u00 * u01 + u01 * u11 = 0)
    (h3 : u10 * u00 + u11 * u10 = 0) (h4 : u10 * u01 + u11 * u11 = 1) (s : State) :
    pointAction n u00 u01 u10 u11 (fun _ => true) t
      (pointAction n u00 u01 u10 u11 (fun _ => true) t s) = s := by
  funext j
  by_cases hj : j < 2 ^ n
  · have hpj : j ^^^ 2 ^ t < 2 ^ n := xor_two_pow_lt ht hj
    have hbp : (j ^^^ 2 ^ t).testBit t = ! j.testBit t := testBit_xor_two_pow_self j t
    have hpp : (j ^^^ 2 ^ t) ^^^ 2 ^ t = j := xor_two_pow_twice j t
    rw [pointAction_true_eval u00 u01 u10 u11 _ hj]
    by_cases hb : j.testBit t
    · rw [if_pos hb, pointAction_true_eval u00 u01 u10 u11 s hpj,
        pointAction_true_eval u00 u01 u10 u11 s hj, if_pos hb,
        if_neg (by simp [hbp, hb]), hpp]
      linear_combination s (j ^^^ 2 ^ t) * h3 + s j * h4
    · rw [if_neg hb, pointAction_true_eval u00 u01 u10 u11 s hpj,
        pointAction_true_eval u00 u01 u10 u11 s hj, if_neg hb,
        if_pos (by simp [hbp, Bool.eq_false_iff.mpr hb]), hpp]
      linear_combination s j * h1 + s (j ^^^ 2 ^ t) * h2
  · rw [pointAction_high _ _ _ _ _ _ _ _ hj, pointAction_high _ _ _ _ _ _ _ _ hj]

theorem stepGate_H (n t : ℕ) (ht : t < n) (s : State) :
    stepGate n s (Gate.mk .H t none) =
      applyGate (2 ^ n) ⟨INV_SQRT_2, 0⟩ ⟨INV_SQRT_2, 0⟩ ⟨INV_SQRT_2, 0⟩ ⟨-INV_SQRT_2, 0⟩
        t s := by
  unfold stepGate
  rw [if_neg (by
    push_neg
    exact ⟨show t < n by omega, fun c hc => by cases hc⟩)]
  rw [Nat.one_shiftLeft]

theorem stepGate_X (n t : ℕ) (ht : t < n) (s : State) :
    stepGate n s (Gate.mk .X t none) =
      applyGate (2 ^ n) czero cone cone czero t s := by
  unfold stepGate
  rw [if_neg (by
    push_neg
    exact ⟨show t < n by omega, fun c hc => by cases hc⟩)]
  rw [Nat.one_shiftLeft]

/-- C8: applying `H` twice to any state is the identity, and applying `X`
twice to any state is the identity (exactly in the real-number model, hence
within any floating tolerance). -/
theorem claim_self_inverse_gates (n t : ℕ) (ht : t < n) (s : State) :
    stepGate n (stepGate n s (Gate.mk .H t none)) (Gate.mk .H t none) = s ∧
    stepGate n (stepGate n s (Gate.mk .X t none)) (Gate.mk .X t none) = s := by
  constructor
  · rw [stepGate_H n t ht, stepGate_H n t ht,
      applyGate_eq_pointAction ht, applyGate_eq_pointAction ht]
    have hr : INV_SQRT_2 * INV_SQRT_2 = 1 / 2 := by
      rw [INV_SQRT_2, div_mul_div_comm, one_mul, Real.mul_self_sqrt] <;> norm_num
    refine pointAction_twice ht _ _ _ _ ?_ ?_ ?_ ?_ s <;>
      · rw [mk_real]
        try rw [show (⟨-INV_SQRT_2, 0⟩ : ℂ) = ((-INV_SQRT_2 : ℝ) : ℂ) from mk_real _]
        push_cast
        apply Complex.ext <;>
          simp [Complex.mul_re, Complex.mul_im, Complex.add_re, Complex.add_im] <;>
          linear_combination (2:ℝ) * hr
  · rw [stepGate_X n t ht, stepGate_X n t ht,
      applyGate_eq_pointAction ht, applyGate_eq_pointAction ht]
    refine pointAction_twice ht _ _ _ _ ?_ ?_ ?_ ?_ s <;>
      · rw [czero_eq, cone_eq]
        ring

/-- C8 witness: the theorem applies at one qubit, target 0, the initial
state. -/
theorem claim_self_inverse_gates_witness :
    (0:ℕ) < 1 ∧
      stepGate 1 (stepGate 1 initState (Gate.mk .H 0 none)) (Gate.mk .H 0 none) = initState :=
  ⟨by norm_num, (claim_self_inverse_gates 1 0 (by norm_num) initState).1⟩

/-! ### Commutation of gates on disjoint qubit sets -/

theorem pointCoefA_invariant (u00 u11 : ℂ) (P : ℕ → Bool) {t t2 : ℕ} (hne : t ≠ t2)
    (hP : ∀ j, P (j ^^^ 2 ^ t2) = P j) (j : ℕ) :
    pointCoefA u00 u11 P t (j ^^^ 2 ^ t2) = pointCoefA u00 u11 P t j := by
  unfold pointCoefA
  rw [hP j, testBit_xor_two_pow_ne hne]

theorem pointCoefB_invariant (u01 u10 : ℂ) (P : ℕ → Bool) {t t2 : ℕ} (hne : t ≠ t2)
    (hP : ∀ j, P (j ^^^ 2 ^ t2) = P j) (j : ℕ) :
    pointCoefB u01 u10 P t (j ^^^ 2 ^ t2) = pointCoefB u01 u10 P t j := by
  unfold pointCoefB
  rw [hP j, testBit_xor_two_pow_ne hne]

theorem pointAction_comm {n t1 t2 : ℕ} (ht1 : t1 < n) (ht2 : t2 < n) (hne : t1 ≠ t2)
    (u00 u01 u10 u11 v00 v01 v10 v11 : ℂ) (P1 P2 : ℕ → Bool)
    (hP1 : ∀ j, P1 (j ^^^ 2 ^ t2) = P1 j) (hP2 : ∀ j, P2 (j ^^^ 2 ^ t1) = P2 j)
    (s : State) :
    pointAction n v00 v01 v10 v11 P2 t2 (pointAction n u00 u01 u10 u11 P1 t1 s) =
      pointAction n u00 u01 u10 u11 P1 t1 (pointAction n v00 v01 v10 v11 P2 t2 s) := by
  funext j
  by_cases hj : j < 2 ^ n
  · have hp1 : j ^^^ 2 ^ t1 < 2 ^ n := xor_two_pow_lt ht1 hj
    have hp2 : j ^^^ 2 ^ t2 < 2 ^ n := xor_two_pow_lt ht2 hj
    rw [pointAction_apply n v00 v01 v10 v11 P2 t2
        (pointAction n u00 u01 u10 u11 P1 t1 s) hj,
      pointAction_apply n u00 u01 u10 u11 P1 t1
        (pointAction n v00 v01 v10 v11 P2 t2 s) hj,
      pointAction_apply n u00 u01 u10 u11 P1 t1 s hj,
      pointAction_apply n u00 u01 u10 u11 P1 t1 s hp2,
      pointAction_apply n v00 v01 v10 v11 P2 t2 s hj,
      pointAction_apply n v00 v01 v10 v11 P2 t2 s hp1,
      pointCoefA_invariant u00 u11 P1 hne hP1 j,
      pointCoefB_invariant u01 u10 P1 hne hP1 j,
      pointCoefA_invariant v00 v11 P2 (fun h => hne h.symm) hP2 j,
      pointCoefB_invariant v01 v10 P2 (fun h => hne h.symm) hP2 j,
      xor_two_pow_comm j t2 t1]
    ring
  · rw [pointAction_high _ _ _ _ _ _ _ _ hj, pointAction_high _ _ _ _ _ _ _ _ hj,
      pointAction_high _ _ _ _ _ _ _ _ hj, pointAction_high _ _ _ _ _ _ _ _ hj]

theorem stepGate_eq_pointAction {n : ℕ} (g : Gate) (hv : validGate n g) (s : State) :
    stepGate n s g =
      pointAction n (gateU g).1 (gateU g).2.1 (gateU g).2.2.1 (gateU g).2.2.2
        (gateCond g) g.target s := by
  obtain ⟨ty, tgt, ctl⟩ := g
  have ht : tgt < n := hv.1
  have hcl : ∀ c ∈ ctl, c < n := hv.2
  unfold stepGate
  rw [if_neg (by
    push_neg
    exact ⟨show tgt < n from ht, fun c hc => hcl c hc⟩)]
  rw [Nat.one_shiftLeft]
  cases ty with
  | H => dsimp only; rw [applyGate_eq_pointAction ht]; rfl
  | X => dsimp only; rw [applyGate_eq_pointAction ht]; rfl
  | Y => dsimp only; rw [applyGate_eq_pointAction ht]; rfl
  | Z => dsimp only; rw [applyGate_eq_pointAction ht]; rfl
  | S => dsimp only; rw [applyGate_eq_pointAction ht]; rfl
  | T => dsimp only; rw [applyGate_eq_pointAction ht]; rfl
  | CX =>
    cases ctl with
    | none => exact (pointAction_false _ _ _ _ _ _ _).symm
    | some c =>
      dsimp only
      by_cases hct : c = tgt
      · subst hct
        have hcond : gateCond (Gate.mk .CX c (some c)) = fun _ => false := by
          simp [gateCond, isControlled]
        rw [hcond, applyControlledGate_self_ctrl]
        exact (pointAction_false _ _ _ _ _ _ _).symm
      · have hcond : gateCond (Gate.mk .CX tgt (some c)) = fun j => j.testBit c := by
          simp [gateCond, isControlled, hct]
        rw [hcond]
        exact applyControlledGate_eq_pointAction ht hct .CX s
  | CY =>
    cases ctl with
    | none => exact (pointAction_false _ _ _ _ _ _ _).symm
    | some c =>
      dsimp only
      by_cases hct : c = tgt
      · subst hct
        have hcond : gateCond (Gate.mk .CY c (some c)) = fun _ => false := by
          simp [gateCond, isControlled]
        rw [hcond, applyControlledGate_self_ctrl]
        exact (pointAction_false _ _ _ _ _ _ _).symm
      · have hcond : gateCond (Gate.mk .CY tgt (some c)) = fun j => j.testBit c := by
          simp [gateCond, isControlled, hct]
        rw [hcond]
        exact applyControlledGate_eq_pointAction ht hct .CY s
  | CZ =>
    cases ctl with
    | none => exact (pointAction_false _ _ _ _ _ _ _).symm
    | some c =>
      dsimp only
      by_cases hct : c = tgt
      · subst hct
        have hcond : gateCond (Gate.mk .CZ c (some c)) = fun _ => false := by
          simp [gateCond, isControlled]
        rw [hcond, applyControlledGate_self_ctrl]
        exact (pointAction_false _ _ _ _ _ _ _).symm
      · have hcond : gateCond (Gate.mk .CZ tgt (some c)) = fun j => j.testBit c := by
          simp [gateCond, isControlled, hct]
        rw [hcond]
        exact applyControlledGate_eq_pointAction ht hct .CZ s
  | CS =>
    cases ctl with
    | none => exact (pointAction_false _ _ _ _ _ _ _).symm
    | some c =>
      dsimp only
      by_cases hct : c = tgt
      · subst hct
        have hcond : gateCond (Gate.mk .CS c (some c)) = fun _ => false := by
          simp [gateCond, isControlled]
        rw [hcond, applyControlledGate_self_ctrl]
        exact (pointAction_false _ _ _ _ _ _ _).symm
      · have hcond : gateCond (Gate.mk .CS tgt (some c)) = fun j => j.testBit c := by
          simp [gateCond, isControlled, hct]
        rw [hcond]
        exact applyControlledGate_eq_pointAction ht hct .CS s

theorem gateCond_invariant (g : Gate) {t2 : ℕ} (h : ∀ q ∈ gateQubits g, q ≠ t2) (j : ℕ) :
    gateCond g (j ^^^ 2 ^ t2) = gateCond g j := by
  unfold gateCond
  by_cases hic : isControlled g.type
  · rw [if_pos hic]
    cases hctl : g.control with
    | none => rfl
    | some c =>
        dsimp only
        by_cases hct : c = g.target
        · rw [if_pos hct]
        · rw [if_neg hct]
          exact testBit_xor_two_pow_ne (h c (by simp [gateQubits, hctl])) j
  · rw [if_neg hic]

/-- C9: two gates acting on disjoint qubit sets commute: applying them in
either order yields the same amplitude vector, and within a circuit the two
orders simulate identically (the fold itself is a deterministic function of
the authored order). -/
theorem claim_disjoint_gates_commute (n : ℕ) (g1 g2 : Gate)
    (hv1 : validGate n g1) (hv2 : validGate n g2)
    (hdisj : ∀ q1 ∈ gateQubits g1, ∀ q2 ∈ gateQubits g2, q1 ≠ q2) (s : State) :
    stepGate n (stepGate n s g1) g2 = stepGate n (stepGate n s g2) g1 ∧
    ∀ c1 c2 : List Gate,
      simulate n (c1 ++ g1 :: g2 :: c2) = simulate n (c1 ++ g2 :: g1 :: c2) := by
  have ht1mem : g1.target ∈ gateQubits g1 := by simp [gateQubits]
  have ht2mem : g2.target ∈ gateQubits g2 := by simp [gateQubits]
  have htne : g1.target ≠ g2.target := hdisj g1.target ht1mem g2.target ht2mem
  have hcomm : ∀ s0 : State,
      stepGate n (stepGate n s0 g1) g2 = stepGate n (stepGate n s0 g2) g1 := by
    intro s0
    rw [stepGate_eq_pointAction g1 hv1 s0, stepGate_eq_pointAction g2 hv2 s0,
      stepGate_eq_pointAction g2 hv2
        (pointAction n (gateU g1).1 (gateU g1).2.1 (gateU g1).2.2.1 (gateU g1).2.2.2
          (gateCond g1) g1.target s0),
      stepGate_eq_pointAction g1 hv1
        (pointAction n (gateU g2).1 (gateU g2).2.1 (gateU g2).2.2.1 (gateU g2).2.2.2
          (gateCond g2) g2.target s0)]
    exact pointAction_comm hv1.1 hv2.1 htne _ _ _ _ _ _ _ _ (gateCond g1) (gateCond g2)
      (gateCond_invariant g1 (fun q hq => hdisj q hq g2.target ht2mem))
      (gateCond_invariant g2 (fun q hq => fun he => hdisj g1.target ht1mem q hq he.symm))
      s0
  refine ⟨hcomm s, ?_⟩
  intro c1 c2
  unfold simulate
  rw [List.foldl_append, List.foldl_append, List.foldl_cons, List.foldl_cons,
    List.foldl_cons, List.foldl_cons, hcomm]

/-- C9 witness: `H` on qubit 0 and `X` on qubit 1 of a two-qubit system act on
disjoint qubit sets, and the theorem applies to them. -/
theorem claim_disjoint_gates_commute_witness :
    (validGate 2 (Gate.mk .H 0 none) ∧ validGate 2 (Gate.mk .X 1 none) ∧
      (∀ q1 ∈ gateQubits (Gate.mk .H 0 none), ∀ q2 ∈ gateQubits (Gate.mk .X 1 none),
        q1 ≠ q2)) ∧
    stepGate 2 (stepGate 2 initState (Gate.mk .H 0 none)) (Gate.mk .X 1 none) =
      stepGate 2 (stepGate 2 initState (Gate.mk .X 1 none)) (Gate.mk .H 0 none) := by
  have hv1 : validGate 2 (Gate.mk .H 0 none) := ⟨by norm_num, fun c hc => by cases hc⟩
  have hv2 : validGate 2 (Gate.mk .X 1 none) := ⟨by norm_num, fun c hc => by cases hc⟩
  have hd : ∀ q1 ∈ gateQubits (Gate.mk .H 0 none),
      ∀ q2 ∈ gateQubits (Gate.mk .X 1 none), q1 ≠ q2 := by
    intro q1 h1 q2 h2
    simp [gateQubits] at h1 h2
    omega
  exact ⟨⟨hv1, hv2, hd⟩,
    (claim_disjoint_gates_commute 2 (Gate.mk .H 0 none) (Gate.mk .X 1 none) hv1 hv2 hd
      initState).1⟩

/-! ### Measurement sampler lemmas (src/unnamed/part_001) -/

theorem find?_range_min {m : ℕ} {p : ℕ → Bool} {j : ℕ}
    (h : (List.range m).find? p = some j) :
    p j = true ∧ j < m ∧ ∀ i < j, p i = false := by
  induction m with
  | zero => simp [List.range_zero] at h
  | succ m ih =>
      rw [List.range_succ, List.find?_append] at h
      cases hfind : (List.range m).find? p with
      | some j2 =>
          rw [hfind] at h
          simp only [Option.or_some] at h
          cases h
          obtain ⟨h1, h2, h3⟩ := ih hfind
          exact ⟨h1, by omega, h3⟩
      | none =>
          rw [hfind] at h
          simp only [Option.none_or] at h
          by_cases hpm : p m
          · rw [List.find?_cons_of_pos _ hpm] at h
            cases h
            refine ⟨hpm, by omega, ?_⟩
            intro i hi
            have := List.find?_eq_none.mp hfind i (List.mem_range.mpr hi)
            simpa using this
          · rw [List.find?_cons_of_neg _ hpm] at h
            simp [List.find?] at h

/-- C7: the cumulative distribution is the running sum of squared magnitudes;
the sampled outcome is always a valid basis index below `2^N`; no index below
the outcome satisfies `r < cdf[j]` (so the outcome is the smallest such index
when one exists); and either the outcome satisfies `r < cdf[outcome]` or it is
the deterministic fallback `numStates - 1`. -/
theorem claim_sampler_cdf (amps : State) (n : ℕ) (r : ℝ) :
    (∀ j, cdf amps j = ∑ i ∈ Finset.range (j + 1), magSq (amps i)) ∧
    sampleOutcome (2 ^ n) (cdf amps) r < 2 ^ n ∧
    (∀ j < sampleOutcome (2 ^ n) (cdf amps) r, ¬ r < cdf amps j) ∧
    (r < cdf amps (sampleOutcome (2 ^ n) (cdf amps) r) ∨
      sampleOutcome (2 ^ n) (cdf amps) r = 2 ^ n - 1) := by
  have hpos : 0 < 2 ^ n := Nat.pos_pow_of_pos n (by norm_num)
  have hcdf : ∀ j, cdf amps j = ∑ i ∈ Finset.range (j + 1), magSq (amps i) := by
    intro j
    induction j with
    | zero => simp [cdf]
    | succ j ih =>
        rw [cdf, ih]
        exact (Finset.sum_range_succ _ _).symm
  refine ⟨hcdf, ?_⟩
  unfold sampleOutcome
  cases hfind : (List.range (2 ^ n - 1)).find? (fun j => decide (r < cdf amps j)) with
  | some j =>
      dsimp only
      obtain ⟨h1, h2, h3⟩ := find?_range_min hfind
      refine ⟨by omega, ?_, Or.inl (of_decide_eq_true h1)⟩
      intro i hi
      have := h3 i hi
      simpa using this
  | none =>
      dsimp only
      refine ⟨by omega, ?_, Or.inr rfl⟩
      intro i hi
      have := List.find?_eq_none.mp hfind i (List.mem_range.mpr (by omega))
      simpa using this

/-! ### Positivity of the reduced density matrix and entropy bounds -/

theorem rhoEntry_re_diag (amps : State) (n : ℕ) (keep : List ℕ) (u : ℕ) :
    (rhoEntry amps n keep u u).re =
      ∑ k ∈ Finset.range (2 ^ (traceIndices n keep).length),
        Complex.normSq (amps (setBits keep u (setBits (traceIndices n keep) k 0))) := by
  unfold rhoEntry
  rw [Complex.re_sum]
  refine Finset.sum_congr rfl (fun k _ => ?_)
  simp [Complex.normSq_apply]

theorem rhoEntry_eq_sum (amps : State) (n : ℕ) (keep : List ℕ) (u v : ℕ) :
    rhoEntry amps n keep u v =
      ∑ k ∈ Finset.range (2 ^ (traceIndices n keep).length),
        amps (setBits keep u (setBits (traceIndices n keep) k 0)) *
          (starRingEnd ℂ) (amps (setBits keep v (setBits (traceIndices n keep) k 0))) := by
  unfold rhoEntry
  refine Finset.sum_congr rfl (fun k _ => ?_)
  apply Complex.ext <;>
    simp [Complex.mul_re, Complex.mul_im] <;>
    ring

theorem sum_mul_conj_normSq_le (m : ℕ) (x y : ℕ → ℂ) :
    Complex.normSq (∑ k ∈ Finset.range m, x k * (starRingEnd ℂ) (y k)) ≤
      (∑ k ∈ Finset.range m, Complex.normSq (x k)) *
        (∑ k ∈ Finset.range m, Complex.normSq (y k)) := by
  let X : EuclideanSpace ℂ (Fin m) := fun k => x k
  let Y : EuclideanSpace ℂ (Fin m) := fun k => y k
  have hinner : (inner Y X : ℂ) = ∑ k ∈ Finset.range m, x k * (starRingEnd ℂ) (y k) := by
    rw [PiLp.inner_apply, ← Fin.sum_univ_eq_sum_range]
    refine Finset.sum_congr rfl (fun k _ => ?_)
    rw [RCLike.inner_apply]
    ring
  have hX : ‖X‖ ^ 2 = ∑ k ∈ Finset.range m, Complex.normSq (x k) := by
    rw [EuclideanSpace.norm_eq, Real.sq_sqrt (by positivity), ← Fin.sum_univ_eq_sum_range]
    refine Finset.sum_congr rfl (fun k _ => ?_)
    rw [Complex.normSq_eq_abs, Complex.norm_eq_abs]
  have hY : ‖Y‖ ^ 2 = ∑ k ∈ Finset.range m, Complex.normSq (y k) := by
    rw [EuclideanSpace.norm_eq, Real.sq_sqrt (by positivity), ← Fin.sum_univ_eq_sum_range]
    refine Finset.sum_congr rfl (fun k _ => ?_)
    rw [Complex.normSq_eq_abs, Complex.norm_eq_abs]
  calc Complex.normSq (∑ k ∈ Finset.range m, x k * (starRingEnd ℂ) (y k))
      = ‖(inner Y X : ℂ)‖ ^ 2 := by
        rw [hinner, Complex.normSq_eq_abs, Complex.norm_eq_abs]
    _ ≤ (‖Y‖ * ‖X‖) ^ 2 := by
        have := norm_inner_le_norm (𝕜 := ℂ) Y X
        exact pow_le_pow_left (norm_nonneg _) this 2
    _ = ‖Y‖ ^ 2 * ‖X‖ ^ 2 := by ring
    _ = _ := by rw [hX, hY]; ring

theorem safeLog_nonpos {x : ℝ} (h0 : 0 ≤ x) (h1 : x ≤ 1) : safeLog x ≤ 0 := by
  unfold safeLog
  by_cases hx : x > 1e-9
  · rw [if_pos hx]
    exact mul_nonpos_of_nonneg_of_nonpos h0 (Real.logb_nonpos (by norm_num) h0 h1)
  · rw [if_neg hx]

theorem safeLog_ge_mul_logb {x : ℝ} (h0 : 0 ≤ x) (h1 : x ≤ 1) :
    x * Real.logb 2 x ≤ safeLog x := by
  unfold safeLog
  by_cases hx : x > 1e-9
  · rw [if_pos hx]
  · rw [if_neg hx]
    exact mul_nonpos_of_nonneg_of_nonpos h0 (Real.logb_nonpos (by norm_num) h0 h1)

theorem binary_entropy_logb_le_one {p : ℝ} (h0 : 0 ≤ p) (h1 : p ≤ 1) :
    -(p * Real.logb 2 p + (1 - p) * Real.logb 2 (1 - p)) ≤ 1 := by
  have hlog2 : 0 < Real.log 2 := Real.log_pos (by norm_num)
  have hkey : -(p * Real.logb 2 p + (1 - p) * Real.logb 2 (1 - p)) =
      Real.binEntropy p / Real.log 2 := by
    rw [Real.binEntropy_eq_negMulLog_add_negMulLog_one_sub]
    unfold Real.negMulLog Real.logb
    field_simp
    ring
  rw [hkey, div_le_one hlog2]
  exact Real.binEntropy_le_log_two

theorem entropy_bounds (amps : State) (n q : ℕ) :
    0 ≤ qubitEntropyRaw amps n q ∧ qubitEntropyRaw amps n q ≤ 1 := by
  have hdet : 0 ≤ (rhoEntry amps n [q] 0 0).re * (rhoEntry amps n [q] 1 1).re -
      ((rhoEntry amps n [q] 0 1).re * (rhoEntry amps n [q] 0 1).re +
        (rhoEntry amps n [q] 0 1).im * (rhoEntry amps n [q] 0 1).im) := by
    have hcs := sum_mul_conj_normSq_le (2 ^ (traceIndices n [q]).length)
      (fun k => amps (setBits [q] 0 (setBits (traceIndices n [q]) k 0)))
      (fun k => amps (setBits [q] 1 (setBits (traceIndices n [q]) k 0)))
    have h01 : Complex.normSq (rhoEntry amps n [q] 0 1) =
        (rhoEntry amps n [q] 0 1).re * (rhoEntry amps n [q] 0 1).re +
          (rhoEntry amps n [q] 0 1).im * (rhoEntry amps n [q] 0 1).im :=
      Complex.normSq_apply _
    rw [← h01, rhoEntry_re_diag amps n [q] 0, rhoEntry_re_diag amps n [q] 1,
      rhoEntry_eq_sum amps n [q] 0 1]
    linarith [hcs]
  set det := (rhoEntry amps n [q] 0 0).re * (rhoEntry amps n [q] 1 1).re -
      ((rhoEntry amps n [q] 0 1).re * (rhoEntry amps n [q] 0 1).re +
        (rhoEntry amps n [q] 0 1).im * (rhoEntry amps n [q] 0 1).im) with hdetdef
  have hraw : qubitEntropyRaw amps n q =
      -(safeLog ((1 + Real.sqrt (max 0 (1 - 4 * det))) / 2) +
        safeLog ((1 - Real.sqrt (max 0 (1 - 4 * det))) / 2)) := rfl
  set d := Real.sqrt (max 0 (1 - 4 * det)) with hddef
  have hd0 : 0 ≤ d := Real.sqrt_nonneg _
  have hd1 : d ≤ 1 := by
    rw [hddef]
    exact Real.sqrt_le_one.mpr (max_le (by norm_num) (by linarith))
  have hl1a : (0:ℝ) ≤ (1 + d) / 2 := by linarith
  have hl1b : (1 + d) / 2 ≤ 1 := by linarith
  have hl2a : (0:ℝ) ≤ (1 - d) / 2 := by linarith
  have hl2b : (1 - d) / 2 ≤ 1 := by linarith
  constructor
  · rw [hraw]
    have := safeLog_nonpos hl1a hl1b
    have := safeLog_nonpos hl2a hl2b
    linarith
  · rw [hraw]
    have hge1 := safeLog_ge_mul_logb hl1a hl1b
    have hge2 := safeLog_ge_mul_logb hl2a hl2b
    have hbin := binary_entropy_logb_le_one hl1a hl1b
    have hsub : 1 - (1 + d) / 2 = (1 - d) / 2 := by ring
    rw [hsub] at hbin
    linarith

theorem qubitEntropy_nonneg (amps : State) (n q : ℕ) : 0 ≤ qubitEntropy amps n q := by
  unfold qubitEntropy
  by_cases h : |qubitEntropyRaw amps n q| < 1e-9
  · rw [if_pos h]
  · rw [if_neg h]
    exact (entropy_bounds amps n q).1

/-- C5: the computed eigenvalues of a single kept qubit's 2x2 reduced density
matrix are `(1 ± sqrt(max(0, 1 - 4*det)))/2` with
`det = rho00*rho11 - |rho01|^2`; the von Neumann entropy is the sum of
`-lambda*log2(lambda)` terms with the term zeroed whenever `lambda <= 1e-9`;
and the resulting entropy satisfies `0 ≤ S ≤ 1`. -/
theorem claim_entropy_closed_form (n q : ℕ) (hq : q < n) (amps : State) :
    qubitEigen amps n q =
      ((1 + Real.sqrt (max 0 (1 - 4 *
          ((rhoEntry amps n [q] 0 0).re * (rhoEntry amps n [q] 1 1).re -
            ((rhoEntry amps n [q] 0 1).re * (rhoEntry amps n [q] 0 1).re +
              (rhoEntry amps n [q] 0 1).im * (rhoEntry amps n [q] 0 1).im))))) / 2,
        (1 - Real.sqrt (max 0 (1 - 4 *
          ((rhoEntry amps n [q] 0 0).re * (rhoEntry amps n [q] 1 1).re -
            ((rhoEntry amps n [q] 0 1).re * (rhoEntry amps n [q] 0 1).re +
              (rhoEntry amps n [q] 0 1).im * (rhoEntry amps n [q] 0 1).im))))) / 2) ∧
    qubitEntropyRaw amps n q =
      -(safeLog (qubitEigen amps n q).1 + safeLog (qubitEigen amps n q).2) ∧
    (∀ x : ℝ, x ≤ 1e-9 → ¬ x > 1e-9 → safeLog x = 0) ∧
    0 ≤ qubitEntropyRaw amps n q ∧ qubitEntropyRaw amps n q ≤ 1 := by
  refine ⟨rfl, rfl, ?_, entropy_bounds amps n q⟩
  intro x _ hx
  unfold safeLog
  rw [if_neg hx]

/-- C5 witness: the theorem applies to qubit 0 of the one-qubit initial
state. -/
theorem claim_entropy_closed_form_witness :
    (0:ℕ) < 1 ∧ 0 ≤ qubitEntropyRaw initState 1 0 ∧ qubitEntropyRaw initState 1 0 ≤ 1 :=
  ⟨by norm_num, (claim_entropy_closed_form 1 0 (by norm_num) initState).2.2.2⟩

/-- C6: above three qubits the pairwise mutual-information list is empty
(no approximation is attempted); for a 3-qubit system each pair `(i, j)`
gets `I = S(i) + S(j) - S(AB)` with `S(AB)` substituted by the remaining
qubit's single-qubit entropy (clamped at zero); for a 2-qubit system
`S(AB) = 0` is used, so the value is exactly `S(0) + S(1)`. -/
theorem claim_mutual_info_scope (amps : State) :
    (∀ n, 3 < n → mutualInfo amps n = []) ∧
    mutualInfo amps 3 =
      [(0, 1, max 0 (qubitEntropy amps 3 0 + qubitEntropy amps 3 1 - qubitEntropy amps 3 2)),
       (0, 2, max 0 (qubitEntropy amps 3 0 + qubitEntropy amps 3 2 - qubitEntropy amps 3 1)),
       (1, 2, max 0 (qubitEntropy amps 3 1 + qubitEntropy amps 3 2 - qubitEntropy amps 3 0))] ∧
    mutualInfo amps 2 = [(0, 1, qubitEntropy amps 2 0 + qubitEntropy amps 2 1)] := by
  refine ⟨?_, rfl, ?_⟩
  · intro n h
    unfold mutualInfo
    rw [if_pos h]
  · have h2 : mutualInfo amps 2 =
        [(0, 1, max 0 (qubitEntropy amps 2 0 + qubitEntropy amps 2 1 - 0))] := rfl
    rw [h2]
    have hmax : max 0 (qubitEntropy amps 2 0 + qubitEntropy amps 2 1 - 0) =
        qubitEntropy amps 2 0 + qubitEntropy amps 2 1 := by
      rw [sub_zero]
      exact max_eq_right
        (add_nonneg (qubitEntropy_nonneg amps 2 0) (qubitEntropy_nonneg amps 2 1))
    rw [hmax]

/-! ### The Bell circuit -/

theorem stepGate_CX (n t c : ℕ) (ht : t < n) (hc : c < n) (s : State) :
    stepGate n s (Gate.mk .CX t (some c)) = applyControlledGate (2 ^ n) .CX c t s := by
  unfold stepGate
  rw [if_neg (by
    push_neg
    refine ⟨show t < n by omega, ?_⟩
    intro c2 hc2
    have : c2 = c := by cases hc2; rfl
    omega)]
  rw [Nat.one_shiftLeft]

theorem bell_amplitudes :
    bellState 0 = ⟨INV_SQRT_2, 0⟩ ∧ bellState 1 = 0 ∧ bellState 2 = 0 ∧
      bellState 3 = ⟨INV_SQRT_2, 0⟩ := by
  have hbell : bellState =
      stepGate 2 (stepGate 2 initState (Gate.mk .H 0 none)) (Gate.mk .CX 1 (some 0)) := rfl
  have hs1 : stepGate 2 initState (Gate.mk .H 0 none) =
      applyGate (2 ^ 2) ⟨INV_SQRT_2, 0⟩ ⟨INV_SQRT_2, 0⟩ ⟨INV_SQRT_2, 0⟩ ⟨-INV_SQRT_2, 0⟩
        0 initState := stepGate_H 2 0 (by norm_num) initState
  set s1 := stepGate 2 initState (Gate.mk .H 0 none) with hs1def
  have e10 : s1 0 = ⟨INV_SQRT_2, 0⟩ := by
    have h := applyGate_at0 (n := 2) (t := 0) (i := 0) (by norm_num) (by norm_num)
      ⟨INV_SQRT_2, 0⟩ ⟨INV_SQRT_2, 0⟩ ⟨INV_SQRT_2, 0⟩ ⟨-INV_SQRT_2, 0⟩ initState
    rw [show pairIdx0 0 0 = 0 from by decide, show pairIdx1 0 0 = 1 from by decide] at h
    rw [hs1, h]
    apply Complex.ext <;> norm_num [cadd, cmul, initState, cone, czero]
  have e11 : s1 1 = ⟨INV_SQRT_2, 0⟩ := by
    have h := applyGate_at1 (n := 2) (t := 0) (i := 0) (by norm_num) (by norm_num)
      ⟨INV_SQRT_2, 0⟩ ⟨INV_SQRT_2, 0⟩ ⟨INV_SQRT_2, 0⟩ ⟨-INV_SQRT_2, 0⟩ initState
    rw [show pairIdx0 0 0 = 0 from by decide, show pairIdx1 0 0 = 1 from by decide] at h
    rw [hs1, h]
    apply Complex.ext <;> norm_num [cadd, cmul, initState, cone, czero]
  have e12 : s1 2 = 0 := by
    have h := applyGate_at0 (n := 2) (t := 0) (i := 1) (by norm_num) (by norm_num)
      ⟨INV_SQRT_2, 0⟩ ⟨INV_SQRT_2, 0⟩ ⟨INV_SQRT_2, 0⟩ ⟨-INV_SQRT_2, 0⟩ initState
    rw [show pairIdx0 0 1 = 2 from by decide, show pairIdx1 0 1 = 3 from by decide] at h
    rw [hs1, h]
    apply Complex.ext <;> norm_num [cadd, cmul, initState, cone, czero]
  have e13 : s1 3 = 0 := by
    have h := applyGate_at1 (n := 2) (t := 0) (i := 1) (by norm_num) (by norm_num)
      ⟨INV_SQRT_2, 0⟩ ⟨INV_SQRT_2, 0⟩ ⟨INV_SQRT_2, 0⟩ ⟨-INV_SQRT_2, 0⟩ initState
    rw [show pairIdx0 0 1 = 2 from by decide, show pairIdx1 0 1 = 3 from by decide] at h
    rw [hs1, h]
    apply Complex.ext <;> norm_num [cadd, cmul, initState, cone, czero]
  have hs2 : bellState = applyControlledGate (2 ^ 2) .CX 0 1 s1 := by
    rw [hbell]
    exact stepGate_CX 2 1 0 (by norm_num) (by norm_num) s1
  have b0 : bellState 0 = s1 0 := by
    have h := applyControlledGate_at0 (n := 2) (t := 1) (i := 0) (by norm_num) (by norm_num)
      .CX 0 s1
    rw [show pairIdx0 1 0 = 0 from by decide] at h
    rw [hs2, h]
    simp only [applyControlledGatePair]
    rw [if_neg (by decide)]
  have b2 : bellState 2 = s1 2 := by
    have h := applyControlledGate_at1 (n := 2) (t := 1) (i := 0) (by norm_num) (by norm_num)
      .CX 0 s1
    rw [show pairIdx1 1 0 = 2 from by decide] at h
    rw [hs2, h]
    simp only [applyControlledGatePair]
    rw [if_neg (by decide)]
  have b1 : bellState 1 = s1 3 := by
    have h := applyControlledGate_at0 (n := 2) (t := 1) (i := 1) (by norm_num) (by norm_num)
      .CX 0 s1
    rw [show pairIdx0 1 1 = 1 from by decide] at h
    rw [hs2, h]
    simp only [applyControlledGatePair]
    rw [if_pos (by decide)]
    rw [show pairIdx0 1 1 = 1 from by decide, show pairIdx1 1 1 = 3 from by decide]
    rw [Function.update_noteq (by decide), Function.update_same]
  have b3 : bellState 3 = s1 1 := by
    have h := applyControlledGate_at1 (n := 2) (t := 1) (i := 1) (by norm_num) (by norm_num)
      .CX 0 s1
    rw [show pairIdx1 1 1 = 3 from by decide] at h
    rw [hs2, h]
    simp only [applyControlledGatePair]
    rw [if_pos (by decide)]
    rw [show pairIdx0 1 1 = 1 from by decide, show pairIdx1 1 1 = 3 from by decide]
    rw [Function.update_same]
  exact ⟨by rw [b0, e10], by rw [b1, e13], by rw [b2, e12], by rw [b3, e11]⟩

theorem logb_two_half : Real.logb 2 (1 / 2 : ℝ) = -1 := by
  rw [show (1 / 2 : ℝ) = 2⁻¹ by norm_num, Real.logb_inv,
    Real.logb_self_eq_one (by norm_num)]

theorem bell_rho_q0 :
    (rhoEntry bellState 2 [0] 0 0).re = 1 / 2 ∧
      (rhoEntry bellState 2 [0] 1 1).re = 1 / 2 ∧
      rhoEntry bellState 2 [0] 0 1 = 0 := by
  obtain ⟨hb0, hb1, hb2, hb3⟩ := bell_amplitudes
  have hr : INV_SQRT_2 * INV_SQRT_2 = 1 / 2 := by
    rw [INV_SQRT_2, div_mul_div_comm, one_mul, Real.mul_self_sqrt] <;> norm_num
  have hexp : ∀ u v : ℕ,
      rhoEntry bellState 2 [0] u v =
        bellState (setBits [0] u (setBits (traceIndices 2 [0]) 0 0)) *
            (starRingEnd ℂ) (bellState (setBits [0] v (setBits (traceIndices 2 [0]) 0 0))) +
          bellState (setBits [0] u (setBits (traceIndices 2 [0]) 1 0)) *
            (starRingEnd ℂ) (bellState (setBits [0] v (setBits (traceIndices 2 [0]) 1 0))) := by
    intro u v
    rw [rhoEntry_eq_sum]
    rw [show ((2:ℕ) ^ (traceIndices 2 [0]).length) = 2 from by decide]
    rw [Finset.sum_range_succ, Finset.sum_range_one]
  constructor
  · have h := hexp 0 0
    rw [show setBits [0] 0 (setBits (traceIndices 2 [0]) 0 0) = 0 from by decide,
      show setBits [0] 0 (setBits (traceIndices 2 [0]) 1 0) = 2 from by decide] at h
    rw [h, hb0, hb2]
    simp [Complex.mul_re, hr]
  constructor
  · have h := hexp 1 1
    rw [show setBits [0] 1 (setBits (traceIndices 2 [0]) 0 0) = 1 from by decide,
      show setBits [0] 1 (setBits (traceIndices 2 [0]) 1 0) = 3 from by decide] at h
    rw [h, hb1, hb3]
    simp [Complex.mul_re, hr]
  · have h := hexp 0 1
    rw [show setBits [0] 0 (setBits (traceIndices 2 [0]) 0 0) = 0 from by decide,
      show setBits [0] 0 (setBits (traceIndices 2 [0]) 1 0) = 2 from by decide,
      show setBits [0] 1 (setBits (traceIndices 2 [0]) 0 0) = 1 from by decide,
      show setBits [0] 1 (setBits (traceIndices 2 [0]) 1 0) = 3 from by decide] at h
    rw [h, hb1, hb2]
    simp

theorem bell_rho_q1 :
    (rhoEntry bellState 2 [1] 0 0).re = 1 / 2 ∧
      (rhoEntry bellState 2 [1] 1 1).re = 1 / 2 ∧
      rhoEntry bellState 2 [1] 0 1 = 0 := by
  obtain ⟨hb0, hb1, hb2, hb3⟩ := bell_amplitudes
  have hr : INV_SQRT_2 * INV_SQRT_2 = 1 / 2 := by
    rw [INV_SQRT_2, div_mul_div_comm, one_mul, Real.mul_self_sqrt] <;> norm_num
  have hexp : ∀ u v : ℕ,
      rhoEntry bellState 2 [1] u v =
        bellState (setBits [1] u (setBits (traceIndices 2 [1]) 0 0)) *
            (starRingEnd ℂ) (bellState (setBits [1] v (setBits (traceIndices 2 [1]) 0 0))) +
          bellState (setBits [1] u (setBits (traceIndices 2 [1]) 1 0)) *
            (starRingEnd ℂ) (bellState (setBits [1] v (setBits (traceIndices 2 [1]) 1 0))) := by
    intro u v
    rw [rhoEntry_eq_sum]
    rw [show ((2:ℕ) ^ (traceIndices 2 [1]).length) = 2 from by decide]
    rw [Finset.sum_range_succ, Finset.sum_range_one]
  constructor
  · have h := hexp 0 0
    rw [show setBits [1] 0 (setBits (traceIndices 2 [1]) 0 0) = 0 from by decide,
      show setBits [1] 0 (setBits (traceIndices 2 [1]) 1 0) = 1 from by decide] at h
    rw [h, hb0, hb1]
    simp [Complex.mul_re, hr]
  constructor
  · have h := hexp 1 1
    rw [show setBits [1] 1 (setBits (traceIndices 2 [1]) 0 0) = 2 from by decide,
      show setBits [1] 1 (setBits (traceIndices 2 [1]) 1 0) = 3 from by decide] at h
    rw [h, hb2, hb3]
    simp [Complex.mul_re, hr]
  · have h := hexp 0 1
    rw [show setBits [1] 0 (setBits (traceIndices 2 [1]) 0 0) = 0 from by decide,
      show setBits [1] 0 (setBits (traceIndices 2 [1]) 1 0) = 1 from by decide,
      show setBits [1] 1 (setBits (traceIndices 2 [1]) 0 0) = 2 from by decide,
      show setBits [1] 1 (setBits (traceIndices 2 [1]) 1 0) = 3 from by decide] at h
    rw [h, hb1, hb2]
    simp

theorem bell_eigen (q : ℕ) (hq : q = 0 ∨ q = 1) :
    qubitEigen bellState 2 q = (1 / 2, 1 / 2) := by
  have key : ∀ r00 r11 : ℝ, ∀ r01 : ℂ, r00 = 1 / 2 → r11 = 1 / 2 → r01 = 0 →
      calculateEigenvalues r00 r11 r01 = (1 / 2, 1 / 2) := by
    intro r00 r11 r01 h1 h2 h3
    subst h1; subst h2; subst h3
    unfold calculateEigenvalues
    norm_num [Complex.zero_re, Complex.zero_im, Real.sqrt_zero]
  rcases hq with rfl | rfl
  · obtain ⟨h1, h2, h3⟩ := bell_rho_q0
    exact key _ _ _ h1 h2 h3
  · obtain ⟨h1, h2, h3⟩ := bell_rho_q1
    exact key _ _ _ h1 h2 h3

theorem bell_entropy (q : ℕ) (hq : q = 0 ∨ q = 1) : qubitEntropy bellState 2 q = 1 := by
  have hraw : qubitEntropyRaw bellState 2 q = 1 := by
    unfold qubitEntropyRaw
    rw [bell_eigen q hq]
    unfold calculateEntropy safeLog
    rw [if_pos (by norm_num : (1 / 2 : ℝ) > 1e-9)]
    rw [logb_two_half]
    norm_num
  unfold qubitEntropy
  rw [hraw, if_neg (by norm_num)]

theorem bell_concurrence : concurrence bellState = 1 := by
  unfold concurrence
  rw [bell_eigen 0 (Or.inl rfl)]
  rw [show ((1 / 2 : ℝ), (1 / 2 : ℝ)).1 * ((1 / 2 : ℝ), (1 / 2 : ℝ)).2 = (1 / 2) ^ 2 by
    norm_num]
  rw [Real.sqrt_sq (by norm_num)]
  norm_num

theorem bell_chsh : chsh bellState = 2 * Real.sqrt 2 := by
  unfold chsh
  rw [bell_concurrence]
  norm_num

/-- C3: from `|00⟩`, applying `H` on qubit 0 then `CX(control 0, target 1)`
yields amplitudes `1/sqrt 2` at basis indices 0 and 3 and 0 at indices 1 and
2; on that state each qubit's reduced entropy equals 1, the concurrence
equals 1, and the CHSH statistic equals `2 * sqrt 2`. -/
theorem claim_bell_construction :
    bellState 0 = ⟨INV_SQRT_2, 0⟩ ∧ bellState 1 = 0 ∧ bellState 2 = 0 ∧
      bellState 3 = ⟨INV_SQRT_2, 0⟩ ∧
      qubitEntropy bellState 2 0 = 1 ∧ qubitEntropy bellState 2 1 = 1 ∧
      concurrence bellState = 1 ∧ chsh bellState = 2 * Real.sqrt 2 := by
  obtain ⟨h0, h1, h2, h3⟩ := bell_amplitudes
  exact ⟨h0, h1, h2, h3, bell_entropy 0 (Or.inl rfl), bell_entropy 1 (Or.inr rfl),
    bell_concurrence, bell_chsh⟩

end QuantumLens
